import Mathlib

set_option maxRecDepth 40000

/-!
Verification of the Huffman tree construction core of `huffman.c`.

The development shallowly embeds the tree-building pipeline:
`calcNodeCnt`, `createNodeIndex`, the `qsort` call, `populateTree` with its
binary-search helper `getInsertionPoint`, and the encoding extraction
`findEncoding` / `reverseString`, together with `treeHeight` and
`createBuffer`.

A C `node *` value (a possibly-NULL pointer to a `struct node`) is embedded
as the inductive `NodeP`, whose `null` constructor stands for the NULL
pointer.  The runtime array `node **a` of the `nodeIndex` structure is a
`List NodeP`; reads `a[i]` become `List.getD i NodeP.null` (reading a slot
that the verified invariants show is never accessed out of range).
Machine `int` values are embedded as `Int` (the verified inputs are byte
frequency counts, far below any overflow boundary).
-/

namespace Huffman

/-- `#define ASIZE 128`: size of the int array indexed by ASCII chars. -/
def ASIZE : Nat := 128

/-- `#define PNODE -250`: arbitrary non-ascii char field for parent nodes. -/
def PNODE : Int := -250

/-- A `node *` value: either NULL or a `struct node` with fields
`freq`, `c`, `left`, `right` (in the order of the C declaration). -/
inductive NodeP : Type where
  | null : NodeP
  | mk (freq : Int) (c : Int) (left : NodeP) (right : NodeP) : NodeP
deriving DecidableEq

/-- Field access `n->freq`.  Reading through NULL is undefined behavior in C;
the embedding returns 0 there, and the safety invariants show the verified
executions never perform such a read. -/
def NodeP.freq : NodeP → Int
  | .null => 0
  | .mk f _ _ _ => f

/-- Field access `n->c` (same convention for NULL as `NodeP.freq`). -/
def NodeP.sym : NodeP → Int
  | .null => PNODE
  | .mk _ c _ _ => c

/-- Field access `n->left`. -/
def NodeP.left : NodeP → NodeP
  | .null => .null
  | .mk _ _ l _ => l

/-- Field access `n->right`. -/
def NodeP.right : NodeP → NodeP
  | .null => .null
  | .mk _ _ _ r => r

/-- NULL test on a node pointer. -/
def NodeP.isNull : NodeP → Bool
  | .null => true
  | .mk _ _ _ _ => false

/-- `a[i]->freq` for a frontier array `a` (slot read with NULL default). -/
def fa (a : List NodeP) (i : Nat) : Int :=
  (a.getD i .null).freq

/-- `calcNodeCnt` (huffman.c lines 219-235): counts the ASCII codes with a
nonzero frequency; fewer than 2 is the fatal "too few nodes" error, which
the embedding surfaces as `none` (the C code prints and calls `exit`). -/
def calcNodeCnt (a : List Int) : Option Nat :=
  let cnt := ((List.range ASIZE).filter (fun i => a.getD i 0 != 0)).length
  if cnt < 2 then none else some cnt

/-- `createNode` (lines 237-252): allocates and fills a node.  The argument
order `(c, freq, left, right)` follows the C prototype; the C function
aborts on allocation failure, which has no counterpart in the embedding. -/
def createNode (c : Int) (freq : Int) (left : NodeP) (right : NodeP) : NodeP :=
  NodeP.mk freq c left right

/-- `createNodeIndex` (lines 254-272): one leaf node per ASCII code with a
nonzero count, scanning codes `0 ≤ i < ASIZE` in increasing order. -/
def createNodeIndex (a : List Int) : List NodeP :=
  (List.range ASIZE).filterMap fun i =>
    if a.getD i 0 != 0 then some (createNode i (a.getD i 0) .null .null) else none

/-- The ordering tested by `nodeComp` (lines 274-280): ascending `freq`. -/
def nodeLE (x y : NodeP) : Prop :=
  x.freq ≤ y.freq

instance : DecidableRel nodeLE := fun x y =>
  inferInstanceAs (Decidable (x.freq ≤ y.freq))

instance : IsTotal NodeP nodeLE :=
  ⟨fun x y => Int.le_total x.freq y.freq⟩

instance : IsTrans NodeP nodeLE :=
  ⟨fun _ _ _ h1 h2 => le_trans h1 h2⟩

/-- The `qsort(index.a, index.len, sizeof(node *), nodeComp)` call of `main`
(line 76): its contract is a permutation of the array that is ascending in
`freq`.  The unspecified tie order of `qsort` does not matter for any
verified property (all of them are invariant under reordering of equal
frequencies); the embedding fixes insertion sort as one compliant sort. -/
def sortNodes (l : List NodeP) : List NodeP :=
  List.insertionSort nodeLE l

/-- The `while (start <= end)` loop of `getInsertionPoint` (lines 321-332),
with `mid = (start + end) / 2` and the three-way comparison against
`index->a[mid]->freq`.  The loop is embedded with a fuel argument so that
it evaluates by kernel reduction; `getInsertionPoint` passes fuel strictly
larger than the search-range length, which the termination lemmas show is
never exhausted. -/
def gipGo (key : Int) (a : List NodeP) : Nat → Int → Int → Int
  | 0, s, _ => s - 1
  | fuel + 1, s, e =>
    if s ≤ e then
      let mid := (s + e) / 2
      if key > fa a mid.toNat then gipGo key a fuel (mid + 1) e
      else if key < fa a mid.toNat then gipGo key a fuel s (mid - 1)
      else mid
    else s - 1

/-- `getInsertionPoint(key, index, start)` (lines 317-335): binary search of
`index->a` between `start` and `index->len - 1`, returning `start - 1` when
the loop exits without an exact frequency match. -/
def getInsertionPoint (key : Int) (a : List NodeP) (start : Int) : Int :=
  gipGo key a (a.length + 1) start ((a.length : Int) - 1)

/-- `memmove(index->a, index->a + 1, insertpoint * sizeof(node *))`
(line 310): slots `0 .. insertpoint-1` receive the old slots
`1 .. insertpoint`; slots from `insertpoint` on are unchanged. -/
def memmoveShift (a : List NodeP) (insertpoint : Nat) : List NodeP :=
  (a.drop 1).take insertpoint ++ a.drop insertpoint

/-- One iteration of the merge loop of `populateTree` (lines 299-313) at
loop counter `start`: build the parent of `a[start]` and `a[start+1]`,
locate its slot with `getInsertionPoint` (called, as in the source, before
the children slots are NULLed), NULL the two children slots, shift when
`insertpoint > start + 1`, and store the parent. -/
def mergeStep (a : List NodeP) (start : Nat) : List NodeP :=
  let lchild := start
  let rchild := start + 1
  let newfreq := fa a lchild + fa a rchild
  let parent := createNode PNODE newfreq (a.getD lchild .null) (a.getD rchild .null)
  let insertpoint := getInsertionPoint parent.freq a lchild
  let a2 := (a.set lchild .null).set rchild .null
  let a3 := if insertpoint > (lchild : Int) + 1 then memmoveShift a2 insertpoint.toNat else a2
  a3.set insertpoint.toNat parent

/-- The `newfreq` value of the merge iteration at loop counter `start`:
`index->a[lchild]->freq + index->a[rchild]->freq` (line 302). -/
def mergeKey (a : List NodeP) (start : Nat) : Int :=
  fa a start + fa a (start + 1)

/-- The parent node built by the merge iteration at `start` (line 303). -/
def mergeParent (a : List NodeP) (start : Nat) : NodeP :=
  NodeP.mk (mergeKey a start) PNODE (a.getD start .null) (a.getD (start + 1) .null)

/-- The `insertpoint` value of the merge iteration at `start` (line 305). -/
def mergeIp (a : List NodeP) (start : Nat) : Int :=
  getInsertionPoint (mergeKey a start) a start

/-- The state of the frontier array after the first `k` iterations of the
merge loop (loop counter values `start = 0, …, k-1`). -/
def iterMerge (a : List NodeP) : Nat → List NodeP
  | 0 => a
  | k + 1 => mergeStep (iterMerge a k) k

/-- `populateTree` (lines 282-315): run the merge loop for
`start = 0, …, index->len - 2` and return `index->a[index->len - 1]`.
`index->len` is fixed for the whole loop, as in the source. -/
def populateTree (a : List NodeP) : NodeP :=
  let len := a.length
  (iterMerge a (len - 1)).getD (len - 1) .null

/-- The number of iterations executed by the `for` loop of `populateTree`,
mirrored on its loop structure (`start` from 0 while `start < len - 1`);
fuel-indexed like `gipGo`, with any fuel at least `len - 1` sufficient. -/
def mergeCount (len : Nat) : Nat → Nat → Nat
  | 0, _ => 0
  | fuel + 1, start => if start < len - 1 then mergeCount len fuel (start + 1) + 1 else 0

/-- `main` lines 73-77 restricted to the tree-building pipeline, given the
already-filled frequency table: node count check, leaf creation, `qsort`,
`populateTree`.  `calcNodeCnt` failing (< 2 symbols) aborts the process
before `createNodeIndex` runs, embedded by the short-circuiting `none`. -/
def runMain (tbl : List Int) : Option NodeP :=
  match calcNodeCnt tbl with
  | none => none
  | some _ => some (populateTree (sortNodes (createNodeIndex tbl)))

/-- The frequency table built by `getFreqsFromFile` (lines 195-217) from the
bytes of the input file: `a[c]++` for every byte `c` read.  The array has
`ASIZE` slots, so a byte outside `0 .. ASIZE-1` indexes out of bounds
(undefined behavior), surfaced as `none` by the embedding. -/
def getFreqsFromFile (file : List Nat) (a : List Int) : Option (List Int) :=
  match file with
  | [] => some a
  | c :: rest =>
    if c < a.length then getFreqsFromFile rest (a.set c (a.getD c 0 + 1)) else none

/-- `findEncoding(root, target, b)` (lines 170-193), with the buffer writes
made explicit: the returned list holds, in write order, exactly the
characters the C code stores at `b->str[0], b->str[1], …` during a
successful search (each frame appends its `'0'`/`'1'` after its successful
child call returns, and the static counter `cnt` is zeroed on every call
entry — `n == root` is a self-comparison — so failed subtree explorations
neither write nor disturb the final positions). `none` is the NULL return. -/
def findEncoding : NodeP → Int → Option (List Char)
  | .null, _ => none
  | .mk _ c l r, target =>
    if c = target then some []
    else
      match findEncoding l target with
      | some s => some (s ++ ['0'])
      | none =>
        match findEncoding r target with
        | some s => some (s ++ ['1'])
        | none => none

/-- In-place index swap used by `reverseString`: `temp = *a; *a = *b;
*b = temp` at positions `i` and `j`. -/
def swapIdx (t : List Char) (i j : Nat) : List Char :=
  (t.set i (t.getD j ' ')).set j (t.getD i ' ')

/-- `reverseString` (lines 156-168): two-pointer in-place reversal, swapping
positions `i` and `len - 1 - i` for `i = 0, …, len/2 - 1`. -/
def reverseString (s : List Char) : List Char :=
  let n := s.length
  (List.range (n / 2)).foldl (fun t i => swapIdx t i (n - 1 - i)) s

/-- `treeHeight` (lines 109-125): -1 for NULL, otherwise one more than the
larger child height. -/
def treeHeight : NodeP → Int
  | .null => -1
  | .mk _ _ l r =>
    let lh := treeHeight l
    let rh := treeHeight r
    if lh > rh then lh + 1 else rh + 1

/-- The `buffer` structure (lines 43-46). -/
structure Buffer : Type where
  str : List Char
  size : Int

/-- `createBuffer(size)` (lines 127-140): `calloc(size + 1, 1)` zero-filled
characters and `b.size = size + 1`. -/
def createBuffer (size : Int) : Buffer :=
  { str := List.replicate (size + 1).toNat (Char.ofNat 0), size := size + 1 }

/-- The effect on the buffer contents of the writes `b->str[cnt++] = …`
performed during one successful `findEncoding` search that writes the
character list `e` at positions `0, …, e.length - 1`. -/
def writeBits (str : List Char) (e : List Char) : List Char :=
  e ++ str.drop e.length

/-! ### Specification-side definitions -/

/-- Root-to-leaf descent along a bit string, following the spec's reading of
an encoding: `'0'` descends left, `'1'` descends right; `none` when the
path runs into NULL or a non-bit character. -/
def walkPath : NodeP → List Char → Option NodeP
  | .null, _ => none
  | .mk f c l r, [] => some (.mk f c l r)
  | .mk _ _ l r, b :: bs =>
    if b = '0' then walkPath l bs
    else if b = '1' then walkPath r bs
    else none

/-- The symbol `s` occurs as the `c` field of some node of the tree. -/
def memSym (s : Int) : NodeP → Bool
  | .null => false
  | .mk _ c l r => (c == s) || memSym s l || memSym s r

/-- Well-formedness of the trees the pipeline builds: every node has either
zero children (a leaf, whose `c` field is an ASCII code `0 ≤ c < ASIZE`) or
two children (an internal node, whose `c` field is the `PNODE` sentinel). -/
def wfB : NodeP → Bool
  | .null => true
  | .mk _ c l r =>
    if l.isNull && r.isNull then decide (0 ≤ c ∧ c < (ASIZE : Int))
    else (!l.isNull) && (!r.isNull) && decide (c = PNODE) && wfB l && wfB r

/-- The claim's "0 or exactly 2 children" property by itself, for every node
of a tree. -/
def fullTree : NodeP → Bool
  | .null => true
  | .mk _ _ l r =>
    if l.isNull && r.isNull then true
    else (!l.isNull) && (!r.isNull) && fullTree l && fullTree r

/-- A non-NULL childless node. -/
def isLeafB : NodeP → Bool
  | .mk _ _ .null .null => true
  | _ => false

/-- Frequency table validity as the claims assume it: the `int ascii[ASIZE]`
array of `main`, with non-negative counts and at least 2 distinct symbols
present. -/
def validTable (tbl : List Int) : Prop :=
  tbl.length = ASIZE ∧ (∀ x ∈ tbl, 0 ≤ x) ∧ calcNodeCnt tbl ≠ none

instance (tbl : List Int) : Decidable (validTable tbl) :=
  inferInstanceAs (Decidable (_ ∧ _ ∧ _))

/-- The number of distinct symbols of the table (the count `calcNodeCnt`
computes before its `< 2` check). -/
def symbolCount (tbl : List Int) : Nat :=
  ((List.range ASIZE).filter (fun i => tbl.getD i 0 != 0)).length

/-- The initial sorted frontier array the pipeline hands to `populateTree`. -/
def initIndex (tbl : List Int) : List NodeP :=
  sortNodes (createNodeIndex tbl)

/-- Position at which `key` would be inserted into the sorted sub-range
`[start, len)` to keep it sorted (the spec's "where key would be inserted
to keep the remainder sorted"): `start` plus the number of strictly smaller
entries of the sub-range. -/
def insertRank (key : Int) (a : List NodeP) (start : Nat) : Nat :=
  start + ((Finset.Ico start a.length).filter (fun i => fa a i < key)).card

/-- Sum of the frequencies of the frontier slots `start ≤ i < len`. -/
def sumFrom (a : List NodeP) (start len : Nat) : Int :=
  ∑ i ∈ Finset.Ico start len, fa a i

/-- The live sub-range `[start, len)` of the frontier holds no NULL slot. -/
def liveAll (a : List NodeP) (start len : Nat) : Prop :=
  ∀ i, start ≤ i → i < len → a.getD i .null ≠ .null

/-- All slots below `start` have been vacated (NULLed or shifted over). -/
def deadBelow (a : List NodeP) (start : Nat) : Prop :=
  ∀ i, i < start → a.getD i .null = .null

/-- The live sub-range `[start, len)` is sorted ascending by frequency. -/
def sortedFrom (a : List NodeP) (start len : Nat) : Prop :=
  ∀ i j, start ≤ i → i ≤ j → j < len → fa a i ≤ fa a j

/-- All live frequencies are strictly positive. -/
def posFrom (a : List NodeP) (start len : Nat) : Prop :=
  ∀ i, start ≤ i → i < len → 0 < fa a i

/-- The invariant of the merge loop of `populateTree` at loop boundary
`start`, for an array of (fixed) length `len`. -/
structure Inv (a : List NodeP) (start len : Nat) : Prop where
  hlen : a.length = len
  hstart : start < len
  hdead : deadBelow a start
  hlive : liveAll a start len
  hsorted : sortedFrom a start len
  hpos : posFrom a start len

/-! ### Concrete inputs used to instantiate and to refute claims -/

/-- A leaf node with frequency `f` and symbol `c`. -/
def leafN (f c : Int) : NodeP :=
  NodeP.mk f c .null .null

/-- Three distinct leaves sharing the frequency 7, as a sorted frontier. -/
def exEq : List NodeP :=
  [leafN 7 0, leafN 7 1, leafN 7 2]

/-- A sorted frontier with frequencies 1, 2, 4. -/
def exGap : List NodeP :=
  [leafN 1 0, leafN 2 1, leafN 4 2]

/-- A concrete `int ascii[ASIZE]` frequency table: 'a' ↦ 1, 'b' ↦ 2,
'c' ↦ 4. -/
def wtbl : List Int :=
  (((List.replicate ASIZE (0 : Int)).set 97 1).set 98 2).set 99 4

/-- A concrete table with a tie: 'a' ↦ 1, 'b' ↦ 1, 'c' ↦ 1, 'd' ↦ 3. -/
def wtbl2 : List Int :=
  ((((List.replicate ASIZE (0 : Int)).set 97 1).set 98 1).set 99 1).set 100 3

/-- An input file whose first byte, 200, is a non-ASCII byte value (valid
per the claimed 0–255 symbol range) followed by 'A' and 'B'. -/
def exFile : List Nat :=
  [200, 65, 66]

/-- The zero-initialised `int ascii[ASIZE] = {0}` array of `main`. -/
def zeroTable : List Int :=
  List.replicate ASIZE 0

end Huffman

namespace Huffman

/-! ### Array-slot reading utilities -/

theorem getD_oob {α : Type} (l : List α) (d : α) {i : Nat} (h : l.length ≤ i) :
    l.getD i d = d := by
  rw [List.getD_eq_getElem?_getD, List.getElem?_eq_none h]
  rfl

theorem getD_set_self {α : Type} (l : List α) (d x : α) {i : Nat} (h : i < l.length) :
    (l.set i x).getD i d = x := by
  rw [List.getD_eq_getElem?_getD, List.getElem?_set_self h]
  rfl

theorem getD_set_ne {α : Type} (l : List α) (d x : α) {i j : Nat} (h : i ≠ j) :
    (l.set i x).getD j d = l.getD j d := by
  rw [List.getD_eq_getElem?_getD, List.getElem?_set_ne h, ← List.getD_eq_getElem?_getD]

theorem memmoveShift_length {a : List NodeP} {ip : Nat} (h : ip < a.length) :
    (memmoveShift a ip).length = a.length := by
  unfold memmoveShift
  rw [List.length_append, List.length_take, List.length_drop, List.length_drop]
  omega

theorem memmoveShift_getD {a : List NodeP} {ip : Nat} (h : ip < a.length) (i : Nat) :
    (memmoveShift a ip).getD i .null =
      if i < ip then a.getD (i + 1) .null else a.getD i .null := by
  unfold memmoveShift
  have htk : ((a.drop 1).take ip).length = ip := by
    rw [List.length_take, List.length_drop]; omega
  rw [List.getD_eq_getElem?_getD, List.getElem?_append, htk]
  by_cases hi : i < ip
  · rw [if_pos hi, if_pos hi, List.getElem?_take, if_pos hi, List.getElem?_drop,
      List.getD_eq_getElem?_getD]
    simp [Nat.add_comm]
  · rw [if_neg hi, if_neg hi, List.getElem?_drop, List.getD_eq_getElem?_getD]
    congr 2
    omega

/-! ### The binary search of `getInsertionPoint` -/

theorem int_mid_bounds {s e : Int} (h : s ≤ e) : s ≤ (s + e) / 2 ∧ (s + e) / 2 ≤ e := by
  constructor
  · have h1 : 2 * s ≤ s + e := by omega
    have h2 := Int.ediv_le_ediv (by norm_num : (0 : Int) < 2) h1
    rwa [Int.mul_ediv_cancel_left s (by norm_num)] at h2
  · have h1 : s + e ≤ 2 * e := by omega
    have h2 := Int.ediv_le_ediv (by norm_num : (0 : Int) < 2) h1
    rwa [Int.mul_ediv_cancel_left e (by norm_num)] at h2

theorem gipGo_spec (key : Int) (a : List NodeP) (s0 e0 : Int) (_h00 : 0 ≤ s0)
    (hsorted : ∀ i j : Int, s0 ≤ i → i ≤ j → j ≤ e0 → fa a i.toNat ≤ fa a j.toNat) :
    ∀ fuel : Nat, ∀ s e : Int, (e + 1 - s).toNat ≤ fuel →
      s0 ≤ s → e ≤ e0 → s ≤ e + 1 →
      (∀ i : Int, s0 ≤ i → i < s → fa a i.toNat < key) →
      (∀ i : Int, e < i → i ≤ e0 → key < fa a i.toNat) →
      (s0 - 1 ≤ gipGo key a fuel s e ∧ gipGo key a fuel s e ≤ e0) ∧
      (∀ i : Int, s0 ≤ i → i ≤ gipGo key a fuel s e → fa a i.toNat ≤ key) ∧
      (∀ i : Int, gipGo key a fuel s e < i → i ≤ e0 → key ≤ fa a i.toNat) := by
  intro fuel
  induction fuel with
  | zero =>
    intro s e hfuel hs0 he0 hse hlow hhigh
    have hse2 : e + 1 = s := by omega
    simp only [gipGo]
    refine ⟨⟨by omega, by omega⟩, ?_, ?_⟩
    · intro i hi1 hi2
      exact le_of_lt (hlow i hi1 (by omega))
    · intro i hi1 hi2
      exact le_of_lt (hhigh i (by omega) hi2)
  | succ fuel ih =>
    intro s e hfuel hs0 he0 hse hlow hhigh
    by_cases hcase : s ≤ e
    · have hmid := int_mid_bounds hcase
      simp only [gipGo, if_pos hcase]
      by_cases hgt : key > fa a ((s + e) / 2).toNat
      · rw [if_pos hgt]
        refine ih ((s + e) / 2 + 1) e (by omega) (by omega) he0 (by omega) ?_ hhigh
        intro i hi1 hi2
        by_cases his : i < s
        · exact hlow i hi1 his
        · have : fa a i.toNat ≤ fa a ((s + e) / 2).toNat :=
            hsorted i ((s + e) / 2) hi1 (by omega) (by omega)
          omega
      · rw [if_neg hgt]
        by_cases hlt : key < fa a ((s + e) / 2).toNat
        · rw [if_pos hlt]
          refine ih s ((s + e) / 2 - 1) (by omega) hs0 (by omega) (by omega) hlow ?_
          intro i hi1 hi2
          by_cases hie : e < i
          · exact hhigh i hie hi2
          · have : fa a ((s + e) / 2).toNat ≤ fa a i.toNat :=
              hsorted ((s + e) / 2) i (by omega) (by omega) (by omega)
            omega
        · rw [if_neg hlt]
          have heq : fa a ((s + e) / 2).toNat = key := by omega
          refine ⟨⟨by omega, by omega⟩, ?_, ?_⟩
          · intro i hi1 hi2
            by_cases his : i < s
            · exact le_of_lt (hlow i hi1 his)
            · have := hsorted i ((s + e) / 2) hi1 (by omega) (by omega)
              omega
          · intro i hi1 hi2
            by_cases hie : e < i
            · exact le_of_lt (hhigh i hie hi2)
            · have := hsorted ((s + e) / 2) i (by omega) (by omega) (by omega)
              omega
    · simp only [gipGo, if_neg hcase]
      refine ⟨⟨by omega, by omega⟩, ?_, ?_⟩
      · intro i hi1 hi2
        exact le_of_lt (hlow i hi1 (by omega))
      · intro i hi1 hi2
        exact le_of_lt (hhigh i (by omega) hi2)

theorem getInsertionPoint_spec (key : Int) (a : List NodeP) (start : Nat)
    (hstart : start ≤ a.length) (hsorted : sortedFrom a start a.length) :
    ((start : Int) - 1 ≤ getInsertionPoint key a start ∧
      getInsertionPoint key a start ≤ (a.length : Int) - 1) ∧
    (∀ i : Nat, start ≤ i → (i : Int) ≤ getInsertionPoint key a start → fa a i ≤ key) ∧
    (∀ i : Nat, getInsertionPoint key a start < (i : Int) → i < a.length → key ≤ fa a i) := by
  have hsortI : ∀ i j : Int, (start : Int) ≤ i → i ≤ j → j ≤ (a.length : Int) - 1 →
      fa a i.toNat ≤ fa a j.toNat := by
    intro i j hi hij hj
    exact hsorted i.toNat j.toNat (by omega) (by omega) (by omega)
  have h := gipGo_spec key a start ((a.length : Int) - 1) (by omega) hsortI
    (a.length + 1) start ((a.length : Int) - 1) (by omega) le_rfl le_rfl (by omega)
    (fun i hi1 hi2 => absurd hi1 (by omega))
    (fun i hi1 hi2 => absurd hi1 (by omega))
  unfold getInsertionPoint
  refine ⟨h.1, ?_, ?_⟩
  · intro i hi1 hi2
    have := h.2.1 i (by omega) hi2
    simpa using this
  · intro i hi1 hi2
    have := h.2.2 i hi1 (by omega)
    simpa using this

theorem gipGo_found (key : Int) (a : List NodeP) :
    ∀ fuel : Nat, ∀ s e : Int, 0 ≤ s → (e + 1 - s).toNat ≤ fuel →
      (∀ i j : Int, s ≤ i → i ≤ j → j ≤ e → fa a i.toNat ≤ fa a j.toNat) →
      (∃ i : Int, s ≤ i ∧ i ≤ e ∧ fa a i.toNat = key) →
      s ≤ gipGo key a fuel s e ∧ gipGo key a fuel s e ≤ e ∧
        fa a (gipGo key a fuel s e).toNat = key := by
  intro fuel
  induction fuel with
  | zero =>
    intro s e hs hfuel hsorted hex
    obtain ⟨i, hi1, hi2, hi3⟩ := hex
    omega
  | succ fuel ih =>
    intro s e hs hfuel hsorted hex
    obtain ⟨i, hi1, hi2, hi3⟩ := hex
    have hcase : s ≤ e := by omega
    have hmid := int_mid_bounds hcase
    simp only [gipGo, if_pos hcase]
    by_cases hgt : key > fa a ((s + e) / 2).toNat
    · rw [if_pos hgt]
      have hrec := ih ((s + e) / 2 + 1) e (by omega) (by omega)
        (fun i2 j2 h1 h2 h3 => hsorted i2 j2 (by omega) h2 h3)
        ⟨i, by
          by_contra hcon
          have := hsorted i ((s + e) / 2) hi1 (by omega) (by omega)
          omega, hi2, hi3⟩
      exact ⟨by omega, hrec.2.1, hrec.2.2⟩
    · rw [if_neg hgt]
      by_cases hlt : key < fa a ((s + e) / 2).toNat
      · rw [if_pos hlt]
        have hrec := ih s ((s + e) / 2 - 1) hs (by omega)
          (fun i2 j2 h1 h2 h3 => hsorted i2 j2 h1 h2 (by omega))
          ⟨i, hi1, by
            by_contra hcon
            have := hsorted ((s + e) / 2) i (by omega) (by omega) hi2
            omega, hi3⟩
        exact ⟨hrec.1, by omega, hrec.2.2⟩
      · rw [if_neg hlt]
        exact ⟨by omega, by omega, by omega⟩

theorem getInsertionPoint_found (key : Int) (a : List NodeP) (start : Nat)
    (hsorted : sortedFrom a start a.length)
    (hex : ∃ i : Nat, start ≤ i ∧ i < a.length ∧ fa a i = key) :
    (start : Int) ≤ getInsertionPoint key a start ∧
      getInsertionPoint key a start ≤ (a.length : Int) - 1 ∧
      fa a (getInsertionPoint key a start).toNat = key := by
  obtain ⟨i, hi1, hi2, hi3⟩ := hex
  unfold getInsertionPoint
  refine gipGo_found key a (a.length + 1) start ((a.length : Int) - 1) (by omega)
    (by omega) ?_ ⟨i, by omega, by omega, by simpa using hi3⟩
  intro i2 j2 h1 h2 h3
  exact hsorted i2.toNat j2.toNat (by omega) (by omega) (by omega)

end Huffman

namespace Huffman

/-! ### Characterization of one merge iteration -/

theorem mergeIp_bounds {a : List NodeP} {start len : Nat} (h : Inv a start len)
    (h2 : start + 1 < len) :
    (start : Int) + 1 ≤ mergeIp a start ∧ mergeIp a start ≤ (len : Int) - 1 := by
  have hlen := h.hlen
  have hs : sortedFrom a start a.length := by rw [hlen]; exact h.hsorted
  obtain ⟨⟨hb1, hb2⟩, hii, hiii⟩ :=
    getInsertionPoint_spec (mergeKey a start) a start (by omega) hs
  unfold mergeIp
  constructor
  · by_contra hcon
    push_neg at hcon
    have hk : mergeKey a start ≤ fa a (start + 1) :=
      hiii (start + 1) (by push_cast; omega) (by omega)
    have h1 : 0 < fa a start := h.hpos start le_rfl (by omega)
    unfold mergeKey at hk
    omega
  · rw [hlen] at hb2
    exact hb2

theorem mergeStep_eq (a : List NodeP) (start : Nat) :
    mergeStep a start =
      (if mergeIp a start > (start : Int) + 1 then
          memmoveShift ((a.set start .null).set (start + 1) .null) (mergeIp a start).toNat
        else ((a.set start .null).set (start + 1) .null)).set
        (mergeIp a start).toNat (mergeParent a start) := rfl

theorem a2_getD_other {a : List NodeP} {start : Nat} {j : Nat} (h1 : j ≠ start)
    (h2 : j ≠ start + 1) :
    ((a.set start .null).set (start + 1) .null).getD j .null = a.getD j .null := by
  rw [getD_set_ne _ _ _ (fun hc => h2 hc.symm), getD_set_ne _ _ _ (fun hc => h1 hc.symm)]

theorem a2_getD_start {a : List NodeP} {start : Nat} (h : start < a.length) :
    ((a.set start .null).set (start + 1) .null).getD start .null = .null := by
  rw [getD_set_ne _ _ _ (by omega), getD_set_self _ _ _ h]

theorem a2_getD_start1 {a : List NodeP} {start : Nat} (h : start + 1 < a.length) :
    ((a.set start .null).set (start + 1) .null).getD (start + 1) .null = .null := by
  rw [getD_set_self]
  rwa [List.length_set]

theorem mergeStep_length {a : List NodeP} {start len : Nat} (h : Inv a start len)
    (h2 : start + 1 < len) : (mergeStep a start).length = a.length := by
  have hip := mergeIp_bounds h h2
  have hlen := h.hlen
  rw [mergeStep_eq, List.length_set]
  by_cases hs : mergeIp a start > (start : Int) + 1
  · rw [if_pos hs, memmoveShift_length]
    · simp
    · simp only [List.length_set]
      omega
  · rw [if_neg hs]
    simp

theorem mergeStep_getD_live {a : List NodeP} {start len : Nat} (h : Inv a start len)
    (h2 : start + 1 < len) {i : Nat} (hi1 : start + 1 ≤ i) (hi2 : i < len) :
    (mergeStep a start).getD i .null =
      if i = (mergeIp a start).toNat then mergeParent a start
      else if i < (mergeIp a start).toNat then a.getD (i + 1) .null
      else a.getD i .null := by
  have hip := mergeIp_bounds h h2
  have hlen := h.hlen
  have hipn : (mergeIp a start).toNat ≤ len - 1 := by omega
  have hipn1 : start + 1 ≤ (mergeIp a start).toNat := by omega
  have hlen2 : ((a.set start .null).set (start + 1) .null).length = a.length := by simp
  rw [mergeStep_eq]
  by_cases hsh : mergeIp a start > (start : Int) + 1
  · rw [if_pos hsh]
    by_cases hieq : i = (mergeIp a start).toNat
    · subst hieq
      rw [if_pos rfl, getD_set_self]
      rw [memmoveShift_length] <;> omega
    · rw [if_neg hieq, getD_set_ne _ _ _ (fun hc => hieq hc.symm),
        memmoveShift_getD (by omega)]
      by_cases hilt : i < (mergeIp a start).toNat
      · rw [if_pos hilt, if_pos hilt, a2_getD_other (by omega) (by omega)]
      · rw [if_neg hilt, if_neg hilt, a2_getD_other (by omega) (by omega)]
  · rw [if_neg hsh]
    have hipeq : (mergeIp a start).toNat = start + 1 := by omega
    by_cases hieq : i = (mergeIp a start).toNat
    · subst hieq
      rw [if_pos rfl, getD_set_self _ _ _ (by simp only [List.length_set]; omega)]
    · rw [if_neg hieq, getD_set_ne _ _ _ (fun hc => hieq hc.symm),
        a2_getD_other (by omega) (by omega), if_neg (by omega)]

theorem mergeStep_getD_dead {a : List NodeP} {start len : Nat} (h : Inv a start len)
    (h2 : start + 1 < len) {i : Nat} (hi : i ≤ start) :
    (mergeStep a start).getD i .null = .null := by
  have hip := mergeIp_bounds h h2
  have hlen := h.hlen
  have hieq : i ≠ (mergeIp a start).toNat := by omega
  rw [mergeStep_eq]
  rw [getD_set_ne _ _ _ (fun hc => hieq hc.symm)]
  by_cases hsh : mergeIp a start > (start : Int) + 1
  · rw [if_pos hsh, memmoveShift_getD (by simp only [List.length_set]; omega),
      if_pos (by omega)]
    rcases Nat.lt_or_ge (i + 1) start with hc | hc
    · rw [a2_getD_other (by omega) (by omega)]
      exact h.hdead _ (by omega)
    · rcases Nat.eq_or_lt_of_le hc with hc2 | hc2
      · rw [← hc2, a2_getD_start (by omega)]
      · have : i + 1 = start + 1 := by omega
        rw [this, a2_getD_start1 (by omega)]
  · rw [if_neg hsh]
    rcases Nat.eq_or_lt_of_le hi with hc | hc
    · rw [hc, a2_getD_start (by omega)]
    · rw [a2_getD_other (by omega) (by omega)]
      exact h.hdead _ (by omega)

end Huffman

namespace Huffman

/-! ### Preservation of the merge-loop invariant -/

theorem mergeIp_facts {a : List NodeP} {start len : Nat} (h : Inv a start len)
    (h2 : start + 1 < len) :
    (∀ i : Nat, start ≤ i → (i : Int) ≤ mergeIp a start → fa a i ≤ mergeKey a start) ∧
    (∀ i : Nat, mergeIp a start < (i : Int) → i < len → mergeKey a start ≤ fa a i) := by
  have hlen := h.hlen
  have hs : sortedFrom a start a.length := by rw [hlen]; exact h.hsorted
  obtain ⟨⟨hb1, hb2⟩, hii, hiii⟩ :=
    getInsertionPoint_spec (mergeKey a start) a start (by omega) hs
  exact ⟨hii, fun i hi1 hi2 => hiii i hi1 (by omega)⟩

theorem mergeStep_fa {a : List NodeP} {start len : Nat} (h : Inv a start len)
    (h2 : start + 1 < len) {i : Nat} (hi1 : start + 1 ≤ i) (hi2 : i < len) :
    fa (mergeStep a start) i =
      if i = (mergeIp a start).toNat then mergeKey a start
      else if i < (mergeIp a start).toNat then fa a (i + 1)
      else fa a i := by
  unfold fa
  rw [mergeStep_getD_live h h2 hi1 hi2]
  by_cases hc1 : i = (mergeIp a start).toNat
  · rw [if_pos hc1, if_pos hc1]
    rfl
  · rw [if_neg hc1, if_neg hc1]
    by_cases hc2 : i < (mergeIp a start).toNat
    · rw [if_pos hc2, if_pos hc2]
    · rw [if_neg hc2, if_neg hc2]

theorem Inv.step {a : List NodeP} {start len : Nat} (h : Inv a start len)
    (h2 : start + 1 < len) : Inv (mergeStep a start) (start + 1) len := by
  have hip := mergeIp_bounds h h2
  have hlen := h.hlen
  have hcast : ((mergeIp a start).toNat : Int) = mergeIp a start := by omega
  have hfacts := mergeIp_facts h h2
  have hkeypos : 0 < mergeKey a start := by
    have p1 := h.hpos start le_rfl (by omega)
    have p2 := h.hpos (start + 1) (by omega) h2
    unfold mergeKey
    omega
  refine ⟨by rw [mergeStep_length h h2, hlen], h2, ?_, ?_, ?_, ?_⟩
  · intro i hi
    exact mergeStep_getD_dead h h2 (by omega)
  · intro i hi1 hi2
    rw [mergeStep_getD_live h h2 hi1 hi2]
    by_cases hc1 : i = (mergeIp a start).toNat
    · rw [if_pos hc1]
      simp [mergeParent]
    · rw [if_neg hc1]
      by_cases hc2 : i < (mergeIp a start).toNat
      · rw [if_pos hc2]
        exact h.hlive (i + 1) (by omega) (by omega)
      · rw [if_neg hc2]
        exact h.hlive i (by omega) hi2
  · intro i j hi hij hj
    rw [mergeStep_fa h h2 hi (by omega), mergeStep_fa h h2 (by omega) hj]
    by_cases hc1 : i = (mergeIp a start).toNat
    · rw [if_pos hc1]
      by_cases hd1 : j = (mergeIp a start).toNat
      · rw [if_pos hd1]
      · rw [if_neg hd1, if_neg (by omega)]
        exact hfacts.2 j (by omega) hj
    · rw [if_neg hc1]
      by_cases hc2 : i < (mergeIp a start).toNat
      · rw [if_pos hc2]
        by_cases hd1 : j = (mergeIp a start).toNat
        · rw [if_pos hd1]
          exact hfacts.1 (i + 1) (by omega) (by omega)
        · rw [if_neg hd1]
          by_cases hd2 : j < (mergeIp a start).toNat
          · rw [if_pos hd2]
            exact h.hsorted (i + 1) (j + 1) (by omega) (by omega) (by omega)
          · rw [if_neg hd2]
            have hx := hfacts.1 (i + 1) (by omega) (by omega)
            have hy := hfacts.2 j (by omega) hj
            omega
      · rw [if_neg hc2]
        have hji : (mergeIp a start).toNat < i := by omega
        rw [if_neg (by omega), if_neg (by omega)]
        exact h.hsorted i j (by omega) hij hj
  · intro i hi1 hi2
    rw [mergeStep_fa h h2 hi1 hi2]
    by_cases hc1 : i = (mergeIp a start).toNat
    · rw [if_pos hc1]
      exact hkeypos
    · rw [if_neg hc1]
      by_cases hc2 : i < (mergeIp a start).toNat
      · rw [if_pos hc2]
        exact h.hpos (i + 1) (by omega) (by omega)
      · rw [if_neg hc2]
        exact h.hpos i (by omega) hi2

end Huffman

namespace Huffman

/-! ### Conservation, symbol, well-formedness and entry preservation -/

theorem sumFrom_step {a : List NodeP} {start len : Nat} (h : Inv a start len)
    (h2 : start + 1 < len) :
    sumFrom (mergeStep a start) (start + 1) len = sumFrom a start len := by
  have hip := mergeIp_bounds h h2
  have hi1 : start + 1 ≤ (mergeIp a start).toNat := by omega
  have hi2 : (mergeIp a start).toNat ≤ len - 1 := by omega
  unfold sumFrom
  have hsplit1 :
      (∑ i ∈ Finset.Ico (start + 1) (mergeIp a start).toNat, fa (mergeStep a start) i) +
        ∑ i ∈ Finset.Ico (mergeIp a start).toNat len, fa (mergeStep a start) i =
      ∑ i ∈ Finset.Ico (start + 1) len, fa (mergeStep a start) i :=
    Finset.sum_Ico_consecutive _ (by omega) (by omega)
  have hbot : ∑ i ∈ Finset.Ico (mergeIp a start).toNat len, fa (mergeStep a start) i =
      fa (mergeStep a start) (mergeIp a start).toNat +
        ∑ i ∈ Finset.Ico ((mergeIp a start).toNat + 1) len, fa (mergeStep a start) i :=
    Finset.sum_eq_sum_Ico_succ_bot (by omega) _
  have hA : ∑ i ∈ Finset.Ico (start + 1) (mergeIp a start).toNat, fa (mergeStep a start) i =
      ∑ i ∈ Finset.Ico (start + 2) ((mergeIp a start).toNat + 1), fa a i := by
    rw [Finset.sum_Ico_eq_sum_range, Finset.sum_Ico_eq_sum_range]
    have hrange : (mergeIp a start).toNat + 1 - (start + 2) =
        (mergeIp a start).toNat - (start + 1) := by omega
    rw [hrange]
    refine Finset.sum_congr rfl ?_
    intro k hk
    rw [Finset.mem_range] at hk
    rw [mergeStep_fa h h2 (by omega) (by omega), if_neg (by omega), if_pos (by omega)]
    congr 1
    omega
  have hmid : fa (mergeStep a start) (mergeIp a start).toNat = mergeKey a start := by
    rw [mergeStep_fa h h2 (by omega) (by omega), if_pos rfl]
  have hC : ∑ i ∈ Finset.Ico ((mergeIp a start).toNat + 1) len, fa (mergeStep a start) i =
      ∑ i ∈ Finset.Ico ((mergeIp a start).toNat + 1) len, fa a i := by
    refine Finset.sum_congr rfl ?_
    intro i hi
    rw [Finset.mem_Ico] at hi
    rw [mergeStep_fa h h2 (by omega) (by omega), if_neg (by omega), if_neg (by omega)]
  have hR1 : ∑ i ∈ Finset.Ico start len, fa a i =
      fa a start + ∑ i ∈ Finset.Ico (start + 1) len, fa a i :=
    Finset.sum_eq_sum_Ico_succ_bot (by omega) _
  have hR2 : ∑ i ∈ Finset.Ico (start + 1) len, fa a i =
      fa a (start + 1) + ∑ i ∈ Finset.Ico (start + 2) len, fa a i :=
    Finset.sum_eq_sum_Ico_succ_bot (by omega) _
  have hR3 : (∑ i ∈ Finset.Ico (start + 2) ((mergeIp a start).toNat + 1), fa a i) +
      ∑ i ∈ Finset.Ico ((mergeIp a start).toNat + 1) len, fa a i =
      ∑ i ∈ Finset.Ico (start + 2) len, fa a i :=
    Finset.sum_Ico_consecutive _ (by omega) (by omega)
  have hkey : mergeKey a start = fa a start + fa a (start + 1) := rfl
  linarith

theorem isNull_false {n : NodeP} (h : n ≠ .null) : n.isNull = false := by
  cases n with
  | null => exact absurd rfl h
  | mk f c l r => rfl

theorem memSym_mk (s f c : Int) (l r : NodeP) :
    memSym s (NodeP.mk f c l r) = ((c == s) || memSym s l || memSym s r) := rfl

theorem syms_step {a : List NodeP} {start len : Nat} (h : Inv a start len)
    (h2 : start + 1 < len) (s : Int) (hs : s ≠ PNODE) :
    (∃ i, start + 1 ≤ i ∧ i < len ∧ memSym s ((mergeStep a start).getD i .null) = true) ↔
    (∃ i, start ≤ i ∧ i < len ∧ memSym s (a.getD i .null) = true) := by
  have hip := mergeIp_bounds h h2
  have hi1 : start + 1 ≤ (mergeIp a start).toNat := by omega
  have hi2 : (mergeIp a start).toNat ≤ len - 1 := by omega
  constructor
  · rintro ⟨i, hia, hib, hmem⟩
    rw [mergeStep_getD_live h h2 hia hib] at hmem
    by_cases hc1 : i = (mergeIp a start).toNat
    · rw [if_pos hc1] at hmem
      unfold mergeParent at hmem
      rw [memSym_mk] at hmem
      simp only [Bool.or_eq_true, beq_iff_eq] at hmem
      rcases hmem with (hp | hl) | hr
      · exact absurd hp.symm hs
      · exact ⟨start, le_rfl, by omega, hl⟩
      · exact ⟨start + 1, by omega, h2, hr⟩
    · rw [if_neg hc1] at hmem
      by_cases hc2 : i < (mergeIp a start).toNat
      · rw [if_pos hc2] at hmem
        exact ⟨i + 1, by omega, by omega, hmem⟩
      · rw [if_neg hc2] at hmem
        exact ⟨i, by omega, hib, hmem⟩
  · rintro ⟨i, hia, hib, hmem⟩
    by_cases hc1 : i ≤ start + 1
    · refine ⟨(mergeIp a start).toNat, by omega, by omega, ?_⟩
      rw [mergeStep_getD_live h h2 (by omega) (by omega), if_pos rfl]
      unfold mergeParent
      rw [memSym_mk]
      simp only [Bool.or_eq_true, beq_iff_eq]
      rcases Nat.eq_or_lt_of_le hc1 with hc2 | hc2
      · right
        rw [hc2] at hmem
        exact hmem
      · have : i = start := by omega
        rw [this] at hmem
        exact Or.inl (Or.inr hmem)
    · by_cases hc2 : i ≤ (mergeIp a start).toNat
      · refine ⟨i - 1, by omega, by omega, ?_⟩
        rw [mergeStep_getD_live h h2 (by omega) (by omega), if_neg (by omega),
          if_pos (by omega)]
        have : i - 1 + 1 = i := by omega
        rw [this]
        exact hmem
      · refine ⟨i, by omega, hib, ?_⟩
        rw [mergeStep_getD_live h h2 (by omega) hib, if_neg (by omega), if_neg (by omega)]
        exact hmem

theorem wfB_internal {f : Int} {l r : NodeP} (hl : l ≠ .null) (hr : r ≠ .null)
    (hwl : wfB l = true) (hwr : wfB r = true) : wfB (NodeP.mk f PNODE l r) = true := by
  unfold wfB
  rw [isNull_false hl, isNull_false hr]
  simp [hwl, hwr]

theorem wf_step {a : List NodeP} {start len : Nat} (h : Inv a start len)
    (h2 : start + 1 < len)
    (hwf : ∀ i, start ≤ i → i < len → wfB (a.getD i .null) = true) :
    ∀ i, start + 1 ≤ i → i < len → wfB ((mergeStep a start).getD i .null) = true := by
  have hip := mergeIp_bounds h h2
  intro i hia hib
  rw [mergeStep_getD_live h h2 hia hib]
  by_cases hc1 : i = (mergeIp a start).toNat
  · rw [if_pos hc1]
    unfold mergeParent
    exact wfB_internal (h.hlive start le_rfl (by omega)) (h.hlive (start + 1) (by omega) h2)
      (hwf start le_rfl (by omega)) (hwf (start + 1) (by omega) h2)
  · rw [if_neg hc1]
    by_cases hc2 : i < (mergeIp a start).toNat
    · rw [if_pos hc2]
      exact hwf (i + 1) (by omega) (by omega)
    · rw [if_neg hc2]
      exact hwf i (by omega) hib

theorem mergeStep_preserves_entries {a : List NodeP} {start len : Nat} (h : Inv a start len)
    (h2 : start + 1 < len) :
    ∀ j, start + 2 ≤ j → j < len → ∃ i, start + 1 ≤ i ∧ i < len ∧
      (mergeStep a start).getD i .null = a.getD j .null := by
  have hip := mergeIp_bounds h h2
  intro j hja hjb
  by_cases hc : j ≤ (mergeIp a start).toNat
  · refine ⟨j - 1, by omega, by omega, ?_⟩
    rw [mergeStep_getD_live h h2 (by omega) (by omega), if_neg (by omega), if_pos (by omega)]
    congr 1
    omega
  · refine ⟨j, by omega, hjb, ?_⟩
    rw [mergeStep_getD_live h h2 (by omega) hjb, if_neg (by omega), if_neg (by omega)]

/-! ### Iterating the merge loop -/

theorem Inv_iter {a : List NodeP} {len : Nat} (h : Inv a 0 len) :
    ∀ k, k < len → Inv (iterMerge a k) k len := by
  intro k
  induction k with
  | zero => intro _; exact h
  | succ k ih =>
    intro hk
    exact (ih (by omega)).step (by omega)

theorem sumFrom_iter {a : List NodeP} {len : Nat} (h : Inv a 0 len) :
    ∀ k, k < len → sumFrom (iterMerge a k) k len = sumFrom a 0 len := by
  intro k
  induction k with
  | zero => intro _; rfl
  | succ k ih =>
    intro hk
    rw [show iterMerge a (k + 1) = mergeStep (iterMerge a k) k from rfl,
      sumFrom_step (Inv_iter h k (by omega)) (by omega)]
    exact ih (by omega)

theorem syms_iter {a : List NodeP} {len : Nat} (h : Inv a 0 len) (s : Int) (hs : s ≠ PNODE) :
    ∀ k, k < len →
      ((∃ i, k ≤ i ∧ i < len ∧ memSym s ((iterMerge a k).getD i .null) = true) ↔
        (∃ i, i < len ∧ memSym s (a.getD i .null) = true)) := by
  intro k
  induction k with
  | zero =>
    intro _
    exact ⟨fun ⟨i, _, hb, hc⟩ => ⟨i, hb, hc⟩, fun ⟨i, hb, hc⟩ => ⟨i, Nat.zero_le i, hb, hc⟩⟩
  | succ k ih =>
    intro hk
    rw [show iterMerge a (k + 1) = mergeStep (iterMerge a k) k from rfl,
      syms_step (Inv_iter h k (by omega)) (by omega) s hs]
    exact ih (by omega)

theorem wf_iter {a : List NodeP} {len : Nat} (h : Inv a 0 len)
    (hwf : ∀ i, i < len → wfB (a.getD i .null) = true) :
    ∀ k, k < len → ∀ i, k ≤ i → i < len → wfB ((iterMerge a k).getD i .null) = true := by
  intro k
  induction k with
  | zero => intro _ i _ hib; exact hwf i hib
  | succ k ih =>
    intro hk
    exact wf_step (Inv_iter h k (by omega)) (by omega)
      (fun i hia hib => ih (by omega) i hia hib)

end Huffman

namespace Huffman

/-! ### Properties of the initial frontier -/

theorem filterMap_if_length {α β : Type} (p : α → Bool) (f : α → β) (l : List α) :
    (l.filterMap fun i => if p i then some (f i) else none).length = (l.filter p).length := by
  induction l with
  | nil => rfl
  | cons x xs ih =>
    rw [List.filterMap_cons, List.filter_cons]
    by_cases hp : p x
    · simp [hp, ih]
    · simp [hp, ih]

theorem createNodeIndex_length (tbl : List Int) :
    (createNodeIndex tbl).length = symbolCount tbl := by
  unfold createNodeIndex symbolCount
  exact filterMap_if_length _ _ _

theorem mem_createNodeIndex {tbl : List Int} {t : NodeP} :
    t ∈ createNodeIndex tbl ↔
      ∃ j : Nat, j < ASIZE ∧ tbl.getD j 0 ≠ 0 ∧
        t = NodeP.mk (tbl.getD j 0) (j : Int) .null .null := by
  unfold createNodeIndex
  rw [List.mem_filterMap]
  constructor
  · rintro ⟨j, hj, hf⟩
    rw [List.mem_range] at hj
    by_cases hz : tbl.getD j 0 != 0
    · rw [if_pos hz] at hf
      refine ⟨j, hj, by simpa using hz, ?_⟩
      cases hf
      rfl
    · rw [if_neg hz] at hf
      cases hf
  · rintro ⟨j, hj, hz, ht⟩
    refine ⟨j, List.mem_range.mpr hj, ?_⟩
    rw [if_pos (by simpa using hz)]
    rw [ht]
    rfl

theorem map_sum_getD {α β : Type} [AddCommMonoid β] (g : α → β) (d : α) (l : List α) :
    (l.map g).sum = ∑ i ∈ Finset.range l.length, g (l.getD i d) := by
  induction l with
  | nil => rfl
  | cons x xs ih =>
    rw [List.map_cons, List.sum_cons, List.length_cons, Finset.sum_range_succ']
    rw [ih]
    simp only [List.getD_cons_succ, List.getD_cons_zero]
    exact add_comm _ _

theorem createNodeIndex_sum (tbl : List Int) (hlen : tbl.length = ASIZE) :
    ((createNodeIndex tbl).map NodeP.freq).sum = tbl.sum := by
  have hgen : ∀ n : Nat,
      (((List.range n).filterMap fun i =>
        if tbl.getD i 0 != 0 then some (createNode i (tbl.getD i 0) .null .null)
        else none).map NodeP.freq).sum = ∑ i ∈ Finset.range n, tbl.getD i 0 := by
    intro n
    induction n with
    | zero => rfl
    | succ n ih =>
      rw [List.range_succ, List.filterMap_append, List.map_append, List.sum_append, ih,
        Finset.sum_range_succ]
      by_cases hz : tbl.getD n 0 != 0
      · simp only [List.filterMap_cons, List.filterMap_nil, if_pos hz]
        simp [createNode, NodeP.freq]
      · simp only [List.filterMap_cons, List.filterMap_nil, if_neg hz]
        have : tbl.getD n 0 = 0 := by simpa using hz
        rw [this]
        simp
  have hsum : tbl.sum = ∑ i ∈ Finset.range tbl.length, tbl.getD i 0 := by
    have hid := map_sum_getD (fun x : Int => x) 0 tbl
    simpa using hid
  unfold createNodeIndex
  rw [hgen ASIZE, ← hlen, ← hsum]

theorem exists_getD_iff_mem {α : Type} (d : α) (l : List α) (P : α → Prop) :
    (∃ i, i < l.length ∧ P (l.getD i d)) ↔ (∃ t ∈ l, P t) := by
  constructor
  · rintro ⟨i, hi, hp⟩
    rw [List.getD_eq_getElem _ _ hi] at hp
    exact ⟨_, List.getElem_mem hi, hp⟩
  · rintro ⟨t, ht, hp⟩
    rw [List.mem_iff_getElem] at ht
    obtain ⟨i, hi, he⟩ := ht
    exact ⟨i, hi, by rw [List.getD_eq_getElem _ _ hi, he]; exact hp⟩

theorem sortNodes_perm (l : List NodeP) : (sortNodes l).Perm l :=
  List.perm_insertionSort nodeLE l

theorem sortNodes_sortedFrom (l : List NodeP) :
    sortedFrom (sortNodes l) 0 (sortNodes l).length := by
  have hs := List.sorted_insertionSort nodeLE l
  rw [List.Sorted, List.pairwise_iff_getElem] at hs
  intro i j hi hij hj
  rcases Nat.eq_or_lt_of_le hij with he | hlt
  · rw [he]
  · have hi2 : i < (sortNodes l).length := by omega
    unfold fa
    rw [List.getD_eq_getElem _ _ hi2, List.getD_eq_getElem _ _ hj]
    exact hs i j hi2 hj hlt

theorem validTable_symbolCount {tbl : List Int} (hv : validTable tbl) :
    2 ≤ symbolCount tbl := by
  have h := hv.2.2
  unfold calcNodeCnt at h
  by_cases hc : symbolCount tbl < 2
  · exact absurd (by unfold symbolCount at hc; simp only [hc, if_pos, hc] at h; simp at h) h
  · omega

theorem initIndex_length {tbl : List Int} :
    (initIndex tbl).length = symbolCount tbl := by
  unfold initIndex
  rw [(sortNodes_perm _).length_eq, createNodeIndex_length]

theorem getD_pos_mem {tbl : List Int} (hv : validTable tbl) {j : Nat} (hj : j < ASIZE)
    (hz : tbl.getD j 0 ≠ 0) : 0 < tbl.getD j 0 := by
  have hjl : j < tbl.length := by rw [hv.1]; exact hj
  have hmem : tbl.getD j 0 ∈ tbl := by
    rw [List.getD_eq_getElem _ _ hjl]
    exact List.getElem_mem hjl
  have := hv.2.1 _ hmem
  omega

theorem initIndex_mem_shape {tbl : List Int} {t : NodeP} (ht : t ∈ initIndex tbl) :
    ∃ j : Nat, j < ASIZE ∧ tbl.getD j 0 ≠ 0 ∧
      t = NodeP.mk (tbl.getD j 0) (j : Int) .null .null := by
  unfold initIndex at ht
  rw [(sortNodes_perm _).mem_iff, mem_createNodeIndex] at ht
  exact ht

theorem initIndex_inv {tbl : List Int} (hv : validTable tbl) :
    Inv (initIndex tbl) 0 (initIndex tbl).length := by
  have hcnt := validTable_symbolCount hv
  have hlen : (initIndex tbl).length = symbolCount tbl := initIndex_length
  refine ⟨rfl, by omega, fun i hi => by omega, ?_, sortNodes_sortedFrom _, ?_⟩
  · intro i _ hi2
    have hmem : (initIndex tbl).getD i .null ∈ initIndex tbl := by
      rw [List.getD_eq_getElem _ _ hi2]
      exact List.getElem_mem hi2
    obtain ⟨j, _, _, ht⟩ := initIndex_mem_shape hmem
    rw [ht]
    intro hc
    cases hc
  · intro i _ hi2
    have hmem : (initIndex tbl).getD i .null ∈ initIndex tbl := by
      rw [List.getD_eq_getElem _ _ hi2]
      exact List.getElem_mem hi2
    obtain ⟨j, hj, hz, ht⟩ := initIndex_mem_shape hmem
    unfold fa
    rw [ht]
    exact getD_pos_mem hv hj hz

theorem initIndex_sum {tbl : List Int} (hv : validTable tbl) :
    sumFrom (initIndex tbl) 0 (initIndex tbl).length = tbl.sum := by
  unfold sumFrom fa
  rw [← Finset.range_eq_Ico, ← map_sum_getD NodeP.freq .null (initIndex tbl)]
  unfold initIndex
  rw [((sortNodes_perm _).map NodeP.freq).sum_eq, createNodeIndex_sum tbl hv.1]

theorem initIndex_syms {tbl : List Int} (s : Int) :
    (∃ i, i < (initIndex tbl).length ∧ memSym s ((initIndex tbl).getD i .null) = true) ↔
      (∃ j : Nat, j < ASIZE ∧ tbl.getD j 0 ≠ 0 ∧ s = (j : Int)) := by
  rw [exists_getD_iff_mem NodeP.null (initIndex tbl) (fun t => memSym s t = true)]
  constructor
  · rintro ⟨t, ht, hp⟩
    obtain ⟨j, hj, hz, hshape⟩ := initIndex_mem_shape ht
    rw [hshape, memSym_mk] at hp
    simp only [memSym, Bool.or_false, beq_iff_eq] at hp
    exact ⟨j, hj, hz, hp.symm⟩
  · rintro ⟨j, hj, hz, hs⟩
    refine ⟨NodeP.mk (tbl.getD j 0) (j : Int) .null .null, ?_, ?_⟩
    · unfold initIndex
      rw [(sortNodes_perm _).mem_iff, mem_createNodeIndex]
      exact ⟨j, hj, hz, rfl⟩
    · rw [memSym_mk]
      simp [memSym, hs]
  
theorem initIndex_wf {tbl : List Int} :
    ∀ i, i < (initIndex tbl).length → wfB ((initIndex tbl).getD i .null) = true := by
  intro i hi
  have hmem : (initIndex tbl).getD i .null ∈ initIndex tbl := by
    rw [List.getD_eq_getElem _ _ hi]
    exact List.getElem_mem hi
  obtain ⟨j, hj, _, ht⟩ := initIndex_mem_shape hmem
  rw [ht]
  unfold wfB
  simp only [NodeP.isNull, Bool.and_self, if_pos]
  refine decide_eq_true ⟨by positivity, ?_⟩
  exact_mod_cast hj

end Huffman

namespace Huffman

/-! ### Recursive encoding extraction -/

theorem isNull_iff {n : NodeP} : n.isNull = true ↔ n = .null := by
  cases n with
  | null => simp [NodeP.isNull]
  | mk f c l r => simp [NodeP.isNull]

theorem wfB_children {f c : Int} {l r : NodeP} (h : wfB (NodeP.mk f c l r) = true) :
    (l = .null ∧ r = .null ∧ 0 ≤ c ∧ c < (ASIZE : Int)) ∨
      (l ≠ .null ∧ r ≠ .null ∧ c = PNODE ∧ wfB l = true ∧ wfB r = true) := by
  unfold wfB at h
  by_cases hn : l.isNull && r.isNull
  · rw [if_pos hn] at h
    rw [Bool.and_eq_true, isNull_iff, isNull_iff] at hn
    exact Or.inl ⟨hn.1, hn.2, of_decide_eq_true h⟩
  · rw [if_neg hn] at h
    simp only [Bool.and_eq_true, Bool.not_eq_true', decide_eq_true_eq] at h
    obtain ⟨⟨⟨⟨hl, hr⟩, hc⟩, hwl⟩, hwr⟩ := h
    exact Or.inr ⟨fun hc2 => by rw [hc2] at hl; exact absurd hl (by simp [NodeP.isNull]),
      fun hc2 => by rw [hc2] at hr; exact absurd hr (by simp [NodeP.isNull]),
      hc, hwl, hwr⟩

theorem findEncoding_isSome {s : Int} :
    ∀ {t : NodeP}, memSym s t = true → ∃ e, findEncoding t s = some e := by
  intro t
  induction t with
  | null => intro h; cases h
  | mk f c l r ihl ihr =>
    intro h
    unfold findEncoding
    by_cases hc : c = s
    · rw [if_pos hc]
      exact ⟨[], rfl⟩
    · rw [if_neg hc]
      rw [memSym_mk] at h
      simp only [Bool.or_eq_true, beq_iff_eq] at h
      rcases h with (hc2 | hl) | hr
      · exact absurd hc2 hc
      · obtain ⟨e, he⟩ := ihl hl
        rw [he]
        exact ⟨e ++ ['0'], rfl⟩
      · cases hfl : findEncoding l s with
        | some e => exact ⟨e ++ ['0'], rfl⟩
        | none =>
          obtain ⟨e, he⟩ := ihr hr
          rw [he]
          exact ⟨e ++ ['1'], rfl⟩

theorem findEncoding_walk {s : Int} :
    ∀ {t : NodeP} {e : List Char}, findEncoding t s = some e →
      ∃ n : NodeP, walkPath t e.reverse = some n ∧ n.sym = s := by
  intro t
  induction t with
  | null => intro e h; cases h
  | mk f c l r ihl ihr =>
    intro e h
    unfold findEncoding at h
    by_cases hc : c = s
    · rw [if_pos hc] at h
      cases h
      exact ⟨NodeP.mk f c l r, rfl, hc⟩
    · rw [if_neg hc] at h
      cases hfl : findEncoding l s with
      | some s1 =>
        rw [hfl] at h
        cases h
        obtain ⟨n, hn, hns⟩ := ihl hfl
        refine ⟨n, ?_, hns⟩
        rw [List.reverse_append]
        show walkPath (NodeP.mk f c l r) ('0' :: s1.reverse) = some n
        unfold walkPath
        rw [if_pos rfl]
        exact hn
      | none =>
        rw [hfl] at h
        cases hfr : findEncoding r s with
        | some s2 =>
          rw [hfr] at h
          cases h
          obtain ⟨n, hn, hns⟩ := ihr hfr
          refine ⟨n, ?_, hns⟩
          rw [List.reverse_append]
          show walkPath (NodeP.mk f c l r) ('1' :: s2.reverse) = some n
          unfold walkPath
          rw [if_neg (by decide), if_pos rfl]
          exact hn
        | none =>
          rw [hfr] at h
          cases h

theorem treeHeight_mk (f c : Int) (l r : NodeP) :
    treeHeight (NodeP.mk f c l r) = max (treeHeight l) (treeHeight r) + 1 := by
  show (if treeHeight l > treeHeight r then treeHeight l + 1 else treeHeight r + 1) = _
  by_cases h : treeHeight l > treeHeight r
  · rw [if_pos h, max_eq_left (by omega)]
  · rw [if_neg h, max_eq_right (by omega)]

theorem treeHeight_ge {t : NodeP} : -1 ≤ treeHeight t := by
  induction t with
  | null => exact le_rfl
  | mk f c l r ihl ihr =>
    rw [treeHeight_mk]
    have hm := le_max_left (treeHeight l) (treeHeight r)
    linarith

theorem findEncoding_length_le {s : Int} :
    ∀ {t : NodeP} {e : List Char}, findEncoding t s = some e →
      (e.length : Int) ≤ treeHeight t := by
  intro t
  induction t with
  | null => intro e h; cases h
  | mk f c l r ihl ihr =>
    intro e h
    have hgl : -1 ≤ treeHeight l := treeHeight_ge
    have hgr : -1 ≤ treeHeight r := treeHeight_ge
    have hml := le_max_left (treeHeight l) (treeHeight r)
    have hmr := le_max_right (treeHeight l) (treeHeight r)
    rw [treeHeight_mk]
    unfold findEncoding at h
    by_cases hc : c = s
    · rw [if_pos hc] at h
      cases h
      simp only [List.length_nil]
      push_cast
      linarith
    · rw [if_neg hc] at h
      cases hfl : findEncoding l s with
      | some s1 =>
        rw [hfl] at h
        cases h
        have := ihl hfl
        rw [List.length_append]
        simp only [List.length_singleton]
        push_cast
        linarith
      | none =>
        rw [hfl] at h
        cases hfr : findEncoding r s with
        | some s2 =>
          rw [hfr] at h
          cases h
          have := ihr hfr
          rw [List.length_append]
          simp only [List.length_singleton]
          push_cast
          linarith
        | none =>
          rw [hfr] at h
          cases h

theorem walkPath_wf :
    ∀ (p : List Char) {t n : NodeP}, wfB t = true → walkPath t p = some n →
      wfB n = true := by
  intro p
  induction p with
  | nil =>
    intro t n hw h
    cases t with
    | null => cases h
    | mk f c l r =>
      cases h
      exact hw
  | cons b bs ih =>
    intro t n hw h
    cases t with
    | null => cases h
    | mk f c l r =>
      unfold walkPath at h
      rcases wfB_children hw with ⟨hl, hr, _⟩ | ⟨_, _, _, hwl, hwr⟩
      · by_cases hb0 : b = '0'
        · rw [if_pos hb0, hl] at h
          cases h
        · rw [if_neg hb0] at h
          by_cases hb1 : b = '1'
          · rw [if_pos hb1, hr] at h
            cases h
          · rw [if_neg hb1] at h
            cases h
      · by_cases hb0 : b = '0'
        · rw [if_pos hb0] at h
          exact ih hwl h
        · rw [if_neg hb0] at h
          by_cases hb1 : b = '1'
          · rw [if_pos hb1] at h
            exact ih hwr h
          · rw [if_neg hb1] at h
            cases h

theorem walkPath_leaf_nil {n : NodeP} {q : List Char} {m : NodeP} (hl : n.left = .null)
    (hr : n.right = .null) (h : walkPath n q = some m) : q = [] ∧ m = n := by
  cases q with
  | nil =>
    cases n with
    | null => cases h
    | mk f c l r =>
      cases h
      exact ⟨rfl, rfl⟩
  | cons b bs =>
    cases n with
    | null => cases h
    | mk f c l r =>
      unfold walkPath at h
      rw [show l = NodeP.null from hl, show r = NodeP.null from hr] at h
      by_cases hb0 : b = '0'
      · rw [if_pos hb0] at h
        cases h
      · rw [if_neg hb0] at h
        by_cases hb1 : b = '1'
        · rw [if_pos hb1] at h
          cases h
        · rw [if_neg hb1] at h
          cases h

theorem walkPath_cons_zero (f c : Int) (l r : NodeP) (bs : List Char) :
    walkPath (NodeP.mk f c l r) ('0' :: bs) = walkPath l bs := by
  show (if ('0' : Char) = '0' then walkPath l bs else _) = walkPath l bs
  rw [if_pos rfl]

theorem walkPath_cons_one (f c : Int) (l r : NodeP) (bs : List Char) :
    walkPath (NodeP.mk f c l r) ('1' :: bs) = walkPath r bs := by
  show (if ('1' : Char) = '0' then walkPath l bs
    else if ('1' : Char) = '1' then walkPath r bs else none) = walkPath r bs
  rw [if_neg (by decide), if_pos rfl]

theorem walkPath_cons_other (f c : Int) (l r : NodeP) {b : Char} (bs : List Char)
    (hb0 : b ≠ '0') (hb1 : b ≠ '1') :
    walkPath (NodeP.mk f c l r) (b :: bs) = none := by
  unfold walkPath
  rw [if_neg hb0, if_neg hb1]

theorem walkPath_append (t : NodeP) (p q : List Char) :
    walkPath t (p ++ q) =
      match walkPath t p with
      | none => none
      | some n => walkPath n q := by
  induction p generalizing t with
  | nil =>
    cases t with
    | null => rfl
    | mk f c l r => rfl
  | cons b bs ih =>
    cases t with
    | null => rfl
    | mk f c l r =>
      rw [List.cons_append]
      by_cases hb0 : b = '0'
      · subst hb0
        rw [walkPath_cons_zero, walkPath_cons_zero, ih]
      · by_cases hb1 : b = '1'
        · subst hb1
          rw [walkPath_cons_one, walkPath_cons_one, ih]
        · rw [walkPath_cons_other _ _ _ _ _ hb0 hb1, walkPath_cons_other _ _ _ _ _ hb0 hb1]

end Huffman

namespace Huffman

/-! ### End-to-end facts about the pipeline -/

theorem initIndex_len_ge {tbl : List Int} (hv : validTable tbl) :
    2 ≤ (initIndex tbl).length := by
  rw [initIndex_length]
  exact validTable_symbolCount hv

theorem populateTree_eq (a : List NodeP) :
    populateTree a = (iterMerge a (a.length - 1)).getD (a.length - 1) .null := rfl

theorem pipeline_final_inv {tbl : List Int} (hv : validTable tbl) :
    Inv (iterMerge (initIndex tbl) ((initIndex tbl).length - 1))
      ((initIndex tbl).length - 1) (initIndex tbl).length := by
  have h2 := initIndex_len_ge hv
  exact Inv_iter (initIndex_inv hv) _ (by omega)

theorem root_ne_null {tbl : List Int} (hv : validTable tbl) :
    populateTree (initIndex tbl) ≠ .null := by
  have h2 := initIndex_len_ge hv
  have hinv := pipeline_final_inv hv
  rw [populateTree_eq]
  exact hinv.hlive _ le_rfl (by omega)

theorem root_unique_live {tbl : List Int} (hv : validTable tbl) :
    ∀ i, i < (initIndex tbl).length →
      ((iterMerge (initIndex tbl) ((initIndex tbl).length - 1)).getD i .null ≠ .null ↔
        i = (initIndex tbl).length - 1) := by
  have h2 := initIndex_len_ge hv
  have hinv := pipeline_final_inv hv
  intro i hi
  constructor
  · intro hne
    by_contra hc
    exact hne (hinv.hdead i (by omega))
  · intro he
    rw [he]
    exact hinv.hlive _ le_rfl (by omega)

theorem root_freq_sum {tbl : List Int} (hv : validTable tbl) :
    (populateTree (initIndex tbl)).freq = tbl.sum := by
  have h2 := initIndex_len_ge hv
  have hsum := sumFrom_iter (initIndex_inv hv) ((initIndex tbl).length - 1) (by omega)
  rw [initIndex_sum hv] at hsum
  rw [populateTree_eq]
  rw [← hsum]
  unfold sumFrom
  rw [Finset.sum_eq_sum_Ico_succ_bot (by omega : (initIndex tbl).length - 1 < (initIndex tbl).length),
    show (initIndex tbl).length - 1 + 1 = (initIndex tbl).length from by omega, Finset.Ico_self,
    Finset.sum_empty, add_zero]
  rfl

theorem root_wf {tbl : List Int} (hv : validTable tbl) :
    wfB (populateTree (initIndex tbl)) = true := by
  have h2 := initIndex_len_ge hv
  rw [populateTree_eq]
  exact wf_iter (initIndex_inv hv) initIndex_wf _ (by omega) _ le_rfl (by omega)

theorem root_syms {tbl : List Int} (hv : validTable tbl) (s : Int) (hs : s ≠ PNODE) :
    (memSym s (populateTree (initIndex tbl)) = true ↔
      ∃ j : Nat, j < ASIZE ∧ tbl.getD j 0 ≠ 0 ∧ s = (j : Int)) := by
  have h2 := initIndex_len_ge hv
  have hsyms := syms_iter (initIndex_inv hv) s hs ((initIndex tbl).length - 1) (by omega)
  rw [populateTree_eq]
  constructor
  · intro hmem
    rw [← initIndex_syms s]
    rw [← hsyms]
    exact ⟨(initIndex tbl).length - 1, le_rfl, by omega, hmem⟩
  · intro hex
    rw [← initIndex_syms s] at hex
    rw [← hsyms] at hex
    obtain ⟨i, hia, hib, hmem⟩ := hex
    have hieq : i = (initIndex tbl).length - 1 := by omega
    rw [hieq] at hmem
    exact hmem

theorem mergeCount_eq :
    ∀ (fuel start len : Nat), len - 1 - start ≤ fuel →
      mergeCount len fuel start = len - 1 - start := by
  intro fuel
  induction fuel with
  | zero =>
    intro start len h
    unfold mergeCount
    omega
  | succ fuel ih =>
    intro start len h
    unfold mergeCount
    by_cases hc : start < len - 1
    · rw [if_pos hc, ih (start + 1) len (by omega)]
      omega
    · rw [if_neg hc]
      omega

/-! ### The no-exact-match return value of the binary search -/

theorem getInsertionPoint_nomatch (key : Int) (a : List NodeP) (start : Nat)
    (hstart : start ≤ a.length) (hsorted : sortedFrom a start a.length)
    (hno : ∀ i : Nat, start ≤ i → i < a.length → fa a i ≠ key) :
    getInsertionPoint key a start = (insertRank key a start : Int) - 1 := by
  obtain ⟨⟨hb1, hb2⟩, hii, hiii⟩ := getInsertionPoint_spec key a start hstart hsorted
  have hset : (Finset.Ico start a.length).filter (fun i => fa a i < key) =
      Finset.Ico start (getInsertionPoint key a start + 1).toNat := by
    ext i
    simp only [Finset.mem_filter, Finset.mem_Ico]
    constructor
    · rintro ⟨⟨hi1, hi2⟩, hlt⟩
      refine ⟨hi1, ?_⟩
      by_contra hc
      push_neg at hc
      have := hiii i (by omega) hi2
      omega
    · rintro ⟨hi1, hi2⟩
      have hir : (i : Int) ≤ getInsertionPoint key a start := by omega
      have hle := hii i hi1 hir
      have hne := hno i hi1 (by omega)
      exact ⟨⟨hi1, by omega⟩, by omega⟩
  unfold insertRank
  rw [hset, Nat.card_Ico]
  omega

end Huffman

namespace Huffman

/-! ### The two-pointer string reversal -/

theorem swapIdx_length (t : List Char) (i j : Nat) : (swapIdx t i j).length = t.length := by
  unfold swapIdx
  rw [List.length_set, List.length_set]

theorem swapIdx_getD (t : List Char) (i j m : Nat) (hi : i < t.length) (hj : j < t.length) :
    (swapIdx t i j).getD m ' ' =
      if m = j then t.getD i ' '
      else if m = i then t.getD j ' '
      else t.getD m ' ' := by
  unfold swapIdx
  by_cases hmj : m = j
  · rw [if_pos hmj, hmj, getD_set_self _ _ _ (by rw [List.length_set]; exact hj)]
  · rw [if_neg hmj, getD_set_ne _ _ _ (fun hc => hmj hc.symm)]
    by_cases hmi : m = i
    · rw [if_pos hmi, hmi, getD_set_self _ _ _ hi]
    · rw [if_neg hmi, getD_set_ne _ _ _ (fun hc => hmi hc.symm)]

theorem revAux_spec (s : List Char) :
    ∀ k : Nat, 2 * k ≤ s.length →
      ((List.range k).foldl (fun t i => swapIdx t i (s.length - 1 - i)) s).length = s.length ∧
      (∀ m, m < s.length →
        ((List.range k).foldl (fun t i => swapIdx t i (s.length - 1 - i)) s).getD m ' ' =
          if m < k ∨ s.length - k ≤ m then s.getD (s.length - 1 - m) ' ' else s.getD m ' ') := by
  intro k
  induction k with
  | zero =>
    intro hk
    rw [List.range_zero, List.foldl_nil]
    refine ⟨rfl, ?_⟩
    intro m hm
    rw [if_neg (by omega)]
  | succ k ih =>
    intro hk
    obtain ⟨ihlen, ihget⟩ := ih (by omega)
    rw [List.range_succ, List.foldl_append, List.foldl_cons, List.foldl_nil]
    have hk1 : k < s.length - 1 - k := by omega
    have hkl : k < s.length := by omega
    have hnkl : s.length - 1 - k < s.length := by omega
    have hTk : ((List.range k).foldl (fun t i => swapIdx t i (s.length - 1 - i)) s).getD
        (s.length - 1 - k) ' ' = s.getD (s.length - 1 - k) ' ' := by
      rw [ihget _ hnkl, if_neg (by omega)]
    have hTk2 : ((List.range k).foldl (fun t i => swapIdx t i (s.length - 1 - i)) s).getD
        k ' ' = s.getD k ' ' := by
      rw [ihget _ hkl, if_neg (by omega)]
    constructor
    · rw [swapIdx_length, ihlen]
    · intro m hm
      rw [swapIdx_getD _ _ _ _ (by rw [ihlen]; omega) (by rw [ihlen]; omega)]
      by_cases hm2 : m = s.length - 1 - k
      · rw [if_pos hm2, hTk2, if_pos (by omega)]
        congr 1
        omega
      · rw [if_neg hm2]
        by_cases hm1 : m = k
        · rw [if_pos hm1, hTk, if_pos (by omega)]
          congr 1
          omega
        · rw [if_neg hm1, ihget _ hm]
          by_cases hcond : m < k ∨ s.length - k ≤ m
          · rw [if_pos hcond, if_pos (by omega)]
          · rw [if_neg hcond, if_neg (by omega)]

theorem reverseString_eq_reverse (s : List Char) : reverseString s = s.reverse := by
  obtain ⟨hlen, hget⟩ := revAux_spec s (s.length / 2) (by omega)
  have hdef : reverseString s =
      (List.range (s.length / 2)).foldl (fun t i => swapIdx t i (s.length - 1 - i)) s := rfl
  have hlen2 : (reverseString s).length = s.reverse.length := by
    rw [List.length_reverse, hdef]
    exact hlen
  apply List.ext_getElem hlen2
  intro m h1 h2
  have hm : m < s.length := by rw [List.length_reverse] at h2; exact h2
  have hrev : s.reverse[m] = s[s.length - 1 - m] := List.getElem_reverse _
  have hkey : (reverseString s).getD m ' ' = s.getD (s.length - 1 - m) ' ' := by
    rw [hdef, hget m hm]
    by_cases hcond : m < s.length / 2 ∨ s.length - s.length / 2 ≤ m
    · rw [if_pos hcond]
    · rw [if_neg hcond]
      push_neg at hcond
      congr 1
      omega
  rw [hrev, ← List.getD_eq_getElem (reverseString s) ' ' h1, hkey,
    List.getD_eq_getElem _ _ (by omega)]

/-! ### Prefix-freeness -/

theorem wfB_leaf_of_sym {n : NodeP} (hw : wfB n = true) (hnn : n ≠ .null)
    (hs : n.sym ≠ PNODE) : n.left = .null ∧ n.right = .null := by
  cases n with
  | null => exact absurd rfl hnn
  | mk f c l r =>
    rcases wfB_children hw with ⟨hl, hr, _⟩ | ⟨_, _, hc, _⟩
    · exact ⟨hl, hr⟩
    · exact absurd hc hs

theorem encodingsDisjoint {t : NodeP} (hwf : wfB t = true) {s1 s2 : Int}
    {e1 e2 : List Char} (hs1 : 0 ≤ s1) (_hs2 : 0 ≤ s2) (hne : s1 ≠ s2)
    (h1 : findEncoding t s1 = some e1) (h2 : findEncoding t s2 = some e2) :
    ¬ ∃ q, e2.reverse = e1.reverse ++ q := by
  rintro ⟨q, hq⟩
  obtain ⟨n1, hw1, hsym1⟩ := findEncoding_walk h1
  obtain ⟨n2, hw2, hsym2⟩ := findEncoding_walk h2
  have hwfn1 : wfB n1 = true := walkPath_wf _ hwf hw1
  have hn1null : n1 ≠ .null := by
    intro hc
    rw [hc] at hsym1
    have : PNODE = s1 := hsym1
    unfold PNODE at this
    omega
  have hleaf := wfB_leaf_of_sym hwfn1 hn1null (by
    rw [hsym1]
    intro hc
    unfold PNODE at hc
    omega)
  rw [hq, walkPath_append, hw1] at hw2
  obtain ⟨hqnil, hn12⟩ := walkPath_leaf_nil hleaf.1 hleaf.2 hw2
  rw [hn12, hsym1] at hsym2
  exact hne hsym2

end Huffman

namespace Huffman

/-! ### Remaining helper lemmas -/

theorem sortedFrom_of_pairwise (a : List NodeP) (h : a.Pairwise nodeLE) :
    sortedFrom a 0 a.length := by
  rw [List.pairwise_iff_getElem] at h
  intro i j hi hij hj
  rcases Nat.eq_or_lt_of_le hij with he | hlt
  · rw [he]
  · have hi2 : i < a.length := by omega
    unfold fa
    rw [List.getD_eq_getElem _ _ hi2, List.getD_eq_getElem _ _ hj]
    exact h i j hi2 hj hlt

theorem Inv_mk0 (a : List NodeP) (hlen : 2 ≤ a.length)
    (hlive : ∀ i, i < a.length → a.getD i .null ≠ .null)
    (hpos : ∀ i, i < a.length → 0 < fa a i)
    (hpair : a.Pairwise nodeLE) : Inv a 0 a.length :=
  ⟨rfl, by omega, fun i hi => by omega, fun i _ hi2 => hlive i hi2,
    sortedFrom_of_pairwise a hpair, fun i _ hi2 => hpos i hi2⟩

theorem wfB_fullTree : ∀ {t : NodeP}, wfB t = true → fullTree t = true := by
  intro t
  induction t with
  | null => intro _; rfl
  | mk f c l r ihl ihr =>
    intro h
    rcases wfB_children h with ⟨hl, hr, _⟩ | ⟨hl, hr, _, hwl, hwr⟩
    · unfold fullTree
      rw [hl, hr]
      rfl
    · unfold fullTree
      rw [isNull_false hl, isNull_false hr]
      simp [ihl hwl, ihr hwr]

theorem calcNodeCnt_valid {tbl : List Int} (hv : validTable tbl) :
    calcNodeCnt tbl = some (symbolCount tbl) := by
  have h2 := validTable_symbolCount hv
  show (if ((List.range ASIZE).filter (fun i => tbl.getD i 0 != 0)).length < 2 then none
    else some ((List.range ASIZE).filter (fun i => tbl.getD i 0 != 0)).length) = _
  rw [if_neg (by unfold symbolCount at h2; omega)]
  rfl

end Huffman

namespace Huffman

/-! ### The claims -/

/-- Claim C1: for every valid frequency table with at least 2 distinct
symbols, after every merge step of `populateTree` the sum of the
frequencies over the live frontier sub-range `[k, len)` (the slots below
`k` being vacated) equals the sum of all original symbol frequencies, and
the final root's frequency equals the sum of all symbol frequencies of the
table (the zero entries of the table contribute nothing). -/
theorem claim_C1 (tbl : List Int) (hv : validTable tbl) :
    (∀ k, k < (initIndex tbl).length →
      sumFrom (iterMerge (initIndex tbl) k) k (initIndex tbl).length = tbl.sum) ∧
    (populateTree (initIndex tbl)).freq = tbl.sum := by
  constructor
  · intro k hk
    rw [sumFrom_iter (initIndex_inv hv) k hk, initIndex_sum hv]
  · exact root_freq_sum hv

theorem claim_C1_witness :
    validTable wtbl ∧ (populateTree (initIndex wtbl)).freq = wtbl.sum :=
  ⟨by decide, (claim_C1 wtbl (by decide)).2⟩

/-- Claim C2: for every valid frequency table, the merge loop of
`populateTree` performs exactly `symbolCount - 1` iterations (the loop
counter runs from 0 while `start < len - 1`, with `len = symbolCount` the
number of leaves built from the table), after which exactly one live
(non-NULL) slot remains, at index `len - 1`, and `populateTree` returns
exactly that slot's node, which is non-NULL. -/
theorem claim_C2 (tbl : List Int) (hv : validTable tbl) :
    mergeCount (symbolCount tbl) (symbolCount tbl) 0 = symbolCount tbl - 1 ∧
    (initIndex tbl).length = symbolCount tbl ∧
    (∀ i, i < (initIndex tbl).length →
      ((iterMerge (initIndex tbl) ((initIndex tbl).length - 1)).getD i .null ≠ .null ↔
        i = (initIndex tbl).length - 1)) ∧
    populateTree (initIndex tbl) =
      (iterMerge (initIndex tbl) ((initIndex tbl).length - 1)).getD
        ((initIndex tbl).length - 1) .null ∧
    populateTree (initIndex tbl) ≠ .null :=
  ⟨mergeCount_eq _ _ _ (by omega), initIndex_length, root_unique_live hv,
    populateTree_eq _, root_ne_null hv⟩

theorem claim_C2_witness :
    validTable wtbl ∧ mergeCount (symbolCount wtbl) (symbolCount wtbl) 0 = symbolCount wtbl - 1 ∧
      populateTree (initIndex wtbl) ≠ .null :=
  ⟨by decide, (claim_C2 wtbl (by decide)).1, (claim_C2 wtbl (by decide)).2.2.2.2⟩

/-- Claim C3: starting from a frontier of non-NULL nodes with strictly
positive frequencies, sorted ascending by frequency, at every iteration
boundary `k` of the merge loop of `populateTree` the live sub-range
`[k, len)` of the frontier is fully sorted ascending by frequency (the
boundary after iteration `start` is `k = start + 1`). -/
theorem claim_C3 (a : List NodeP) (hlen : 2 ≤ a.length)
    (hlive : ∀ i, i < a.length → a.getD i .null ≠ .null)
    (hpos : ∀ i, i < a.length → 0 < fa a i)
    (hpair : a.Pairwise nodeLE) :
    ∀ k, k < a.length → sortedFrom (iterMerge a k) k a.length := by
  intro k hk
  exact (Inv_iter (Inv_mk0 a hlen hlive hpos hpair) k hk).hsorted

theorem claim_C3_witness :
    (2 ≤ exGap.length ∧ exGap.Pairwise nodeLE) ∧
      fa (iterMerge exGap 1) 1 ≤ fa (iterMerge exGap 1) 2 :=
  ⟨⟨by decide, by decide⟩,
    claim_C3 exGap (by decide) (by decide) (by decide) (by decide) 1 (by decide)
      1 2 (by decide) (by decide) (by decide)⟩

/-- Claim C9: for a merge iteration of `populateTree` at loop counter
`start` whose state satisfies the loop invariant (live sub-range
`[start, len)` sorted ascending, non-NULL, strictly positive frequencies)
with at least two live entries, `getInsertionPoint` applied to
`a[start]->freq + a[start+1]->freq` returns a value in `[start+1, len-1]`
(hence the write of the parent at `insertpoint` and the `memmove` of the
`insertpoint` leading slots only touch indices `0 … len-1`), and every
live entry other than the two merged children survives: it still occupies
some live slot of the post-step array, so the parent's write never loses a
live (non-vacated) entry. -/
theorem claim_C9 (a : List NodeP) (start len : Nat) (h : Inv a start len)
    (h2 : start + 1 < len) :
    ((start : Int) + 1 ≤ mergeIp a start ∧ mergeIp a start ≤ (len : Int) - 1) ∧
    (∀ j, start + 2 ≤ j → j < len → ∃ i, start + 1 ≤ i ∧ i < len ∧
      (mergeStep a start).getD i .null = a.getD j .null) :=
  ⟨mergeIp_bounds h h2, mergeStep_preserves_entries h h2⟩

theorem claim_C9_witness :
    (2 ≤ exGap.length) ∧
      ((0 : Int) + 1 ≤ mergeIp exGap 0 ∧ mergeIp exGap 0 ≤ (exGap.length : Int) - 1) :=
  ⟨by decide,
    (claim_C9 exGap 0 exGap.length
      (Inv_mk0 exGap (by decide) (by decide) (by decide) (by decide)) (by decide)).1⟩

end Huffman

namespace Huffman

/-- Claim C4, counterexample: on the sorted frontier `exEq` of three nodes
all of frequency 7 and key 7, searched from `start = 0`, the binary search
returns position 1, not the rightmost slot holding frequency 7 (position 2
does, and sort order would equally admit placement there): the plain
binary search stops at whichever matching slot `mid` first hits, so the
claimed "rightmost matching / last correctly-ranked position" is wrong. -/
theorem claim_C4_counterexample :
    exEq.Pairwise nodeLE ∧ fa exEq 1 = 7 ∧ fa exEq 2 = 7 ∧
      getInsertionPoint 7 exEq 0 = 1 ∧ getInsertionPoint 7 exEq 0 ≠ 2 := by
  refine ⟨by decide, by decide, by decide, by decide, by decide⟩

/-- Claim C4, amended: for a frontier whose sub-range `[start, len)` is
sorted ascending and any key: when some entry of the range has frequency
`key`, `getInsertionPoint` returns the position of SOME matching entry of
the range (not necessarily the rightmost one); when no entry matches, it
returns `low - 1`, the position immediately before the insertion rank of
`key` (`start` plus the number of range entries with frequency below
`key`). -/
theorem claim_C4 (key : Int) (a : List NodeP) (start : Nat) (hstart : start ≤ a.length)
    (hsorted : sortedFrom a start a.length) :
    ((∃ i, start ≤ i ∧ i < a.length ∧ fa a i = key) →
      (start : Int) ≤ getInsertionPoint key a start ∧
        getInsertionPoint key a start ≤ (a.length : Int) - 1 ∧
        fa a (getInsertionPoint key a start).toNat = key) ∧
    ((∀ i, start ≤ i → i < a.length → fa a i ≠ key) →
      getInsertionPoint key a start = (insertRank key a start : Int) - 1) := by
  constructor
  · intro hex
    exact getInsertionPoint_found key a start hsorted hex
  · intro hno
    exact getInsertionPoint_nomatch key a start hstart hsorted hno

theorem claim_C4_witness :
    exGap.Pairwise nodeLE ∧
      getInsertionPoint 3 exGap 0 = (insertRank 3 exGap 0 : Int) - 1 :=
  ⟨by decide,
    (claim_C4 3 exGap 0 (by decide) (sortedFrom_of_pairwise exGap (by decide))).2
      (fun i h1 h2 => by
        have h3 : i < 3 := h2
        interval_cases i <;> decide)⟩

/-- Claim C5: for every symbol of a valid frequency table, `findEncoding`
on the finished tree succeeds (the not-found NULL return never occurs),
and the recovered character list, reversed by `reverseString`, is a
root-to-leaf path of the tree — walking it from the root with `'0'`
selecting the left child and `'1'` the right child lands exactly, after
consuming all `e.length` characters (so the encoding length equals that
leaf's depth in edges), on a childless node carrying the symbol. -/
theorem claim_C5 (tbl : List Int) (hv : validTable tbl) (s : Nat) (hs : s < ASIZE)
    (hz : tbl.getD s 0 ≠ 0) :
    ∃ e n, findEncoding (populateTree (initIndex tbl)) (s : Int) = some e ∧
      walkPath (populateTree (initIndex tbl)) (reverseString e) = some n ∧
      n.sym = (s : Int) ∧ n.left = .null ∧ n.right = .null ∧
      (reverseString e).length = e.length := by
  have hsp : (s : Int) ≠ PNODE := by
    unfold PNODE
    omega
  have hmem : memSym (s : Int) (populateTree (initIndex tbl)) = true :=
    (root_syms hv (s : Int) hsp).mpr ⟨s, hs, hz, rfl⟩
  obtain ⟨e, he⟩ := findEncoding_isSome hmem
  obtain ⟨n, hw, hsym⟩ := findEncoding_walk he
  have hnn : n ≠ .null := by
    intro hc
    rw [hc] at hsym
    exact hsp hsym.symm
  have hleaf := wfB_leaf_of_sym (walkPath_wf _ (root_wf hv) hw) hnn (by rw [hsym]; exact hsp)
  refine ⟨e, n, he, ?_, hsym, hleaf.1, hleaf.2, ?_⟩
  · rw [reverseString_eq_reverse]
    exact hw
  · rw [reverseString_eq_reverse, List.length_reverse]

theorem claim_C5_witness :
    validTable wtbl ∧ (findEncoding (populateTree (initIndex wtbl)) 97).isSome = true := by
  refine ⟨by decide, ?_⟩
  obtain ⟨e, n, he, _⟩ := claim_C5 wtbl (by decide) 97 (by decide) (by decide)
  rw [show ((97 : Nat) : Int) = (97 : Int) from rfl] at he
  rw [he]
  rfl

/-- Claim C6: the tree `populateTree` builds from a valid frequency table
is full — every node has zero or exactly two children, no single-child
node exists — and consequently the encodings are prefix-free: for two
distinct symbols of the table, the reversed encoding of one is never an
initial segment of the reversed encoding of the other. -/
theorem claim_C6 (tbl : List Int) (hv : validTable tbl) :
    fullTree (populateTree (initIndex tbl)) = true ∧
    (∀ s1 s2 : Nat, s1 < ASIZE → s2 < ASIZE → s1 ≠ s2 →
      ∀ e1 e2 : List Char,
        findEncoding (populateTree (initIndex tbl)) (s1 : Int) = some e1 →
        findEncoding (populateTree (initIndex tbl)) (s2 : Int) = some e2 →
        ¬ ∃ q, reverseString e2 = reverseString e1 ++ q) := by
  constructor
  · exact wfB_fullTree (root_wf hv)
  · intro s1 s2 _ _ hne e1 e2 h1 h2
    rw [reverseString_eq_reverse, reverseString_eq_reverse]
    exact encodingsDisjoint (root_wf hv) (by positivity) (by positivity)
      (by exact_mod_cast hne) h1 h2

theorem claim_C6_witness :
    validTable wtbl ∧ fullTree (populateTree (initIndex wtbl)) = true :=
  ⟨by decide, (claim_C6 wtbl (by decide)).1⟩

/-- Claim C7: when the frequency table has fewer than 2 distinct symbols,
`calcNodeCnt` fails with the fatal too-few-nodes error (embedded as
`none`; the C code prints to stderr and exits), and the pipeline of `main`
produces no tree: the failure is raised inside `calcNodeCnt` (line 74 of
`main`), before `createNodeIndex` (line 75) performs any node allocation,
which the short-circuiting embedding of `runMain` mirrors. -/
theorem claim_C7 (tbl : List Int) (hcnt : symbolCount tbl < 2) :
    calcNodeCnt tbl = none ∧ runMain tbl = none := by
  have h1 : calcNodeCnt tbl = none := by
    show (if ((List.range ASIZE).filter (fun i => tbl.getD i 0 != 0)).length < 2 then none
      else some ((List.range ASIZE).filter (fun i => tbl.getD i 0 != 0)).length) = none
    rw [if_pos (by unfold symbolCount at hcnt; exact hcnt)]
  refine ⟨h1, ?_⟩
  unfold runMain
  rw [h1]

theorem claim_C7_witness :
    symbolCount zeroTable < 2 ∧ runMain zeroTable = none :=
  ⟨by decide, (claim_C7 zeroTable (by decide)).2⟩

end Huffman

namespace Huffman

/-- Claim C8, counterexample: the claimed symbol range 0–255 is wrong — the
frequency table is `int ascii[ASIZE]` with `ASIZE = 128`, so the mapping
induced by the input file `exFile` = bytes 200, 'A', 'B' (three distinct
symbols, all byte values below 256, each with a positive count) is not
accepted: reading byte 200 indexes the 128-slot table out of bounds
(`a[c]++` with `c = 200`, undefined behavior, embedded as `none`), so no
tree over these symbols is ever built. -/
theorem claim_C8_counterexample :
    ASIZE = 128 ∧ exFile = [200, 65, 66] ∧ 200 < 256 ∧ exFile.Nodup ∧
      2 ≤ exFile.length ∧ zeroTable.length = ASIZE ∧
      getFreqsFromFile exFile zeroTable = none := by
  refine ⟨rfl, rfl, by decide, by decide, by decide, by decide, by decide⟩

/-- Claim C8, amended: for every mapping from symbols that are byte values
in the ASCII range 0–127 (the table `int ascii[ASIZE]`, `ASIZE = 128`) to
strictly positive counts with at least 2 distinct symbols present, the
core accepts the input (`calcNodeCnt` succeeds), builds the tree over
exactly those symbols (every table symbol occurs in the tree, and every
non-negative symbol value occurring in the tree is a table symbol), and
produces a bit-sequence encoding for every symbol of the mapping. -/
theorem claim_C8 (tbl : List Int) (hv : validTable tbl) :
    calcNodeCnt tbl = some (symbolCount tbl) ∧
    (∀ s : Nat, s < ASIZE → tbl.getD s 0 ≠ 0 →
      memSym (s : Int) (populateTree (initIndex tbl)) = true ∧
      ∃ e, findEncoding (populateTree (initIndex tbl)) (s : Int) = some e) ∧
    (∀ s : Int, 0 ≤ s → memSym s (populateTree (initIndex tbl)) = true →
      ∃ j : Nat, j < ASIZE ∧ tbl.getD j 0 ≠ 0 ∧ s = (j : Int)) := by
  refine ⟨calcNodeCnt_valid hv, ?_, ?_⟩
  · intro s hs hz
    have hsp : (s : Int) ≠ PNODE := by
      unfold PNODE
      omega
    have hmem := (root_syms hv (s : Int) hsp).mpr ⟨s, hs, hz, rfl⟩
    exact ⟨hmem, findEncoding_isSome hmem⟩
  · intro s hs0 hmem
    have hsp : s ≠ PNODE := by
      unfold PNODE
      omega
    exact (root_syms hv s hsp).mp hmem

theorem claim_C8_witness :
    validTable wtbl ∧ calcNodeCnt wtbl = some (symbolCount wtbl) ∧
      memSym ((97 : Nat) : Int) (populateTree (initIndex wtbl)) = true :=
  ⟨by decide, (claim_C8 wtbl (by decide)).1,
    ((claim_C8 wtbl (by decide)).2.1 97 (by decide) (by decide)).1⟩

/-- Claim C10: for every symbol of a valid frequency table, the character
list the `findEncoding` search writes into the buffer has length at most
`treeHeight(root)` (the write counter takes exactly the values
`0 … e.length - 1`, bounded by the found leaf's depth: the counter is
zeroed at every call entry and the writes happen only while the successful
search unwinds), so every write lands strictly inside the
`treeHeight(root) + 1` characters that `createBuffer(treeHeight(root))`
allocates (as `printHuffman` does at line 90), and after the writes the
buffer still carries a NUL terminator right after the written prefix. -/
theorem claim_C10 (tbl : List Int) (hv : validTable tbl) (s : Nat) (hs : s < ASIZE)
    (hz : tbl.getD s 0 ≠ 0) :
    ∃ e, findEncoding (populateTree (initIndex tbl)) (s : Int) = some e ∧
      (e.length : Int) ≤ treeHeight (populateTree (initIndex tbl)) ∧
      (createBuffer (treeHeight (populateTree (initIndex tbl)))).size =
        treeHeight (populateTree (initIndex tbl)) + 1 ∧
      e.length < (createBuffer (treeHeight (populateTree (initIndex tbl)))).str.length ∧
      (writeBits (createBuffer (treeHeight (populateTree (initIndex tbl)))).str e).getD
        e.length (Char.ofNat 1) = Char.ofNat 0 := by
  have hsp : (s : Int) ≠ PNODE := by
    unfold PNODE
    omega
  have hmem : memSym (s : Int) (populateTree (initIndex tbl)) = true :=
    (root_syms hv (s : Int) hsp).mpr ⟨s, hs, hz, rfl⟩
  obtain ⟨e, he⟩ := findEncoding_isSome hmem
  have hlen := findEncoding_length_le he
  have hpos : (0 : Int) ≤ treeHeight (populateTree (initIndex tbl)) := by
    have hc : (0 : Int) ≤ (e.length : Int) := Int.natCast_nonneg e.length
    omega
  have hstr : (createBuffer (treeHeight (populateTree (initIndex tbl)))).str.length =
      (treeHeight (populateTree (initIndex tbl)) + 1).toNat := by
    show (List.replicate _ _).length = _
    rw [List.length_replicate]
  have hlt : e.length < (createBuffer (treeHeight (populateTree (initIndex tbl)))).str.length := by
    rw [hstr]
    omega
  refine ⟨e, he, hlen, rfl, hlt, ?_⟩
  unfold writeBits
  rw [List.getD_eq_getElem?_getD, List.getElem?_append_right le_rfl, Nat.sub_self,
    List.getElem?_drop, Nat.add_zero]
  show (List.replicate (treeHeight (populateTree (initIndex tbl)) + 1).toNat
    (Char.ofNat 0))[e.length]?.getD (Char.ofNat 1) = Char.ofNat 0
  rw [List.getElem?_replicate, if_pos (by rw [hstr] at hlt; exact hlt)]
  rfl

theorem claim_C10_witness :
    validTable wtbl ∧
      ((findEncoding (populateTree (initIndex wtbl)) ((97 : Nat) : Int)).getD []).length <
        (createBuffer (treeHeight (populateTree (initIndex wtbl)))).str.length := by
  refine ⟨by decide, ?_⟩
  obtain ⟨e, he, h1, h2, h3, h4⟩ := claim_C10 wtbl (by decide) 97 (by decide) (by decide)
  rw [he, Option.getD_some]
  exact h3

end Huffman
